import Mathlib

/-!
# Verification of the kirk-ai acquisition-to-retrieval pipeline

A shallow embedding, in Lean 4, of the core functions of the kirk-ai
repository (a Go CLI that crawls pages, chunks them, embeds the chunks and
answers questions by similarity search plus retrieval-augmented generation),
together with proofs and refutations of the specified properties.

Modelling conventions:
* Go strings are modelled as Lean `String`/`List Char`; the crawled corpus is
  ASCII, so Go's byte-level `len`/slicing coincides with character counts.
* Go `int` is modelled as `Int` (no overflow occurs at the sizes involved),
  counts as `Nat`, and `float64` similarity scores and thresholds as `ℚ`
  (the constants 0.0, 0.3, 0.5 and the comparisons performed on them are
  exact in binary floating point at the scales that arise).
* Go standard-library string helpers (`strings.Fields`, `strings.TrimSpace`,
  `strings.ReplaceAll`, `strings.Count`, `strings.Contains`) are implemented
  below with Go's documented semantics restricted to ASCII.
* Fallible calls (embedding inference, robots fetches) are modelled as
  explicit `Except`/`Option` arguments supplied by the caller.
-/

namespace KirkAI

/-! ## Go string primitives (ASCII model) -/

/-- Whitespace recognised by Go (`unicode.IsSpace` / regexp `\s`), ASCII range. -/
def isGoSpace (c : Char) : Bool :=
  c = ' ' || c = '\t' || c = '\n' || c = '\r' || c = '\x0b' || c = '\x0c'

/-- Drop leading Go whitespace (left half of `strings.TrimSpace`). -/
def trimLeftList (l : List Char) : List Char := l.dropWhile isGoSpace

/-- Drop trailing Go whitespace (right half of `strings.TrimSpace`). -/
def trimRightList (l : List Char) : List Char :=
  (l.reverse.dropWhile isGoSpace).reverse

/-- `strings.TrimSpace` on character lists. -/
def trimSpaceList (l : List Char) : List Char := trimLeftList (trimRightList l)

/-- `strings.TrimSpace`. -/
def trimSpace (s : String) : String := ⟨trimSpaceList s.data⟩

/-- Accumulator-style splitter behind `strings.Fields`: `acc` is the current
word reversed. -/
def fieldsAux : List Char → List Char → List (List Char)
  | [], acc => if acc = [] then [] else [acc.reverse]
  | c :: rest, acc =>
    if isGoSpace c then
      if acc = [] then fieldsAux rest [] else acc.reverse :: fieldsAux rest []
    else fieldsAux rest (c :: acc)

/-- `strings.Fields`: whitespace-separated words, no empties. -/
def fieldsList (l : List Char) : List (List Char) := fieldsAux l []

/-- `len(strings.Fields(s))`. -/
def numFields (s : String) : Nat := (fieldsList s.data).length

/-- Does `l` start with `pat`? (`strings.HasPrefix`.) -/
def startsWithList : List Char → List Char → Bool
  | _, [] => true
  | [], _ :: _ => false
  | a :: as, b :: bs => a = b && startsWithList as bs

/-- `strings.Contains` on character lists. -/
def containsSubList : List Char → List Char → Bool
  | l, pat =>
    startsWithList l pat ||
      match l with
      | [] => false
      | _ :: rest => containsSubList rest pat

/-- Scanner behind `strings.Count` for a nonempty pattern `p :: ps`
(non-overlapping, leftmost-first). -/
def countSubAux (p : Char) (ps : List Char) : List Char → Nat
  | [] => 0
  | c :: rest =>
    if startsWithList (c :: rest) (p :: ps) then
      1 + countSubAux p ps (rest.drop ps.length)
    else countSubAux p ps rest
termination_by l => l.length
decreasing_by
  · simp [List.length_drop]
    omega
  · simp

/-- `strings.Count` (non-overlapping, leftmost-first); for the empty pattern
Go returns `len(s)+1`. -/
def countSubList (pat l : List Char) : Nat :=
  match pat with
  | [] => l.length + 1
  | p :: ps => countSubAux p ps l

/-- Scanner behind `strings.ReplaceAll` for a nonempty pattern `p :: ps`
(leftmost-first, non-overlapping). -/
def replaceAllAux (p : Char) (ps rep : List Char) : List Char → List Char
  | [] => []
  | c :: rest =>
    if startsWithList (c :: rest) (p :: ps) then
      rep ++ replaceAllAux p ps rep (rest.drop ps.length)
    else c :: replaceAllAux p ps rep rest
termination_by l => l.length
decreasing_by
  · simp [List.length_drop]
    omega
  · simp

/-- `strings.ReplaceAll s pat rep` for nonempty `pat`; the empty pattern never
occurs in the embedded code and is mapped to the identity. -/
def replaceAllList (pat rep l : List Char) : List Char :=
  match pat with
  | [] => l
  | p :: ps => replaceAllAux p ps rep l

/-- Go byte length of an (ASCII) string. -/
def goLen (s : String) : Nat := s.data.length

/-- Go slice `s[:n]` for an (ASCII) string. -/
def goTake (s : String) (n : Nat) : String := ⟨s.data.take n⟩

/-- `strings.Join` on character lists: the separator goes between elements. -/
def goJoinList (sep : List Char) : List String → List Char
  | [] => []
  | [s] => s.data
  | s :: rest => s.data ++ sep ++ goJoinList sep rest

/-- `strings.Join parts sep`. -/
def goJoin (parts : List String) (sep : String) : String :=
  ⟨goJoinList sep.data parts⟩

/-! ## Data model (cmd/rag.go, cmd embed command)

`embeddingItem` is the vector-store record loaded from the embeddings JSON
file; `searchResult` pairs a record with its similarity score.  Go's
`map[string]interface{}` metadata bag is modelled by its string-valued
entries, the only ones the embedded code reads. -/

structure embeddingItem where
  ID : String
  ChunkIndex : Int
  Content : String
  Metadata : Option (List (String × String))
  Embedding : List ℚ
deriving DecidableEq

structure searchResult where
  Item : embeddingItem
  Similarity : ℚ
deriving DecidableEq

/-- Lookup of a string-valued key in the metadata bag. -/
def lookupMeta (m : List (String × String)) (k : String) : Option String :=
  (m.find? (fun p => p.1 = k)).map (fun p => p.2)

/-- `getContentFromEmbedding` (cmd/rag.go): the direct content field, falling
back to the metadata-embedded `content` entry, else the empty string. -/
def getContentFromEmbedding (item : embeddingItem) : String :=
  if item.Content ≠ "" then item.Content
  else
    match item.Metadata with
    | some m =>
      match lookupMeta m "content" with
      | some c => if c ≠ "" then c else ""
      | none => ""
    | none => ""

/-! ## RAG context assembly (cmd/rag.go, runRAGCommand lines 116–175) -/

/-- The per-result deduplication key of the assembly loop: the record ID, or
the content (or `chunk_<index>` for empty content) truncated to 200 bytes. -/
def chunkKey (r : searchResult) : String :=
  if r.Item.ID ≠ "" then r.Item.ID
  else
    let key := getContentFromEmbedding r.Item
    let key := if key = "" then "chunk_" ++ toString r.Item.ChunkIndex else key
    if goLen key > 200 then goTake key 200 else key

/-- State of the assembly loop: seen dedup keys, collected parts, running
character total and the results actually used. -/
structure ragAsmState where
  seenKeys : List String
  contextParts : List String
  totalLength : Int
  usedResults : List searchResult
deriving DecidableEq

/-- The `for _, result := range results` loop of runRAGCommand: skip seen
keys and empty content; stop when no budget remains; an overflowing chunk is
truncated to the remaining budget plus an ellipsis when more than 100
characters remain, else dropped; either way assembly stops after an
overflow. -/
def ragAsmLoop (maxLength : Int) : List searchResult → ragAsmState → ragAsmState
  | [], st => st
  | r :: rest, st =>
    let key := chunkKey r
    if key ∈ st.seenKeys then ragAsmLoop maxLength rest st
    else
      let st1 : ragAsmState := { st with seenKeys := st.seenKeys ++ [key] }
      let content := getContentFromEmbedding r.Item
      if content = "" then ragAsmLoop maxLength rest st1
      else
        let remaining := maxLength - st1.totalLength
        if remaining ≤ 0 then st1
        else if (goLen content : Int) > remaining then
          if remaining > 100 then
            let content1 := goTake content remaining.toNat ++ "..."
            { st1 with
              contextParts := st1.contextParts ++ [content1],
              totalLength := st1.totalLength + goLen content1,
              usedResults := st1.usedResults ++ [r] }
          else st1
        else
          ragAsmLoop maxLength rest
            { st1 with
              contextParts := st1.contextParts ++ [content],
              totalLength := st1.totalLength + goLen content,
              usedResults := st1.usedResults ++ [r] }

/-- The effective maximum context length: a configured value of 0 selects the
8000-character default. -/
def effectiveMaxLength (ragMaxContextLength : Int) : Int :=
  if ragMaxContextLength = 0 then 8000 else ragMaxContextLength

/-- Context building in runRAGCommand: run the assembly loop, return `none`
when no parts were collected (the "no content available" early return), else
join with blank lines and apply the final safety truncation to the maximum. -/
def buildRAGContext (results : List searchResult) (ragMaxContextLength : Int) :
    Option String :=
  let maxLength := effectiveMaxLength ragMaxContextLength
  let st := ragAsmLoop maxLength results ⟨[], [], 0, []⟩
  if st.contextParts = [] then none
  else
    let context := goJoin st.contextParts "\n\n"
    some (if (goLen context : Int) > maxLength then goTake context maxLength.toNat
          else context)

/-! ## RAG outcome (cmd/rag.go, runRAGCommand lines 100–195) -/

/-- The user-visible outcomes of runRAGCommand after the search step: the
"No relevant context found" early return, the "no content available" early
return, and handing the assembled context to the generation boundary. -/
inductive ragOutcome where
  | noRelevantContext
  | noContentAvailable
  | generated (context : String)
deriving DecidableEq

/-- Does an outcome reach the text-generation boundary? -/
def ragCallsGeneration : ragOutcome → Bool
  | .generated _ => true
  | _ => false

/-- Control flow of runRAGCommand from the search result onwards: zero
results return the explicit no-context outcome before any generation call. -/
def runRAGPipeline (results : List searchResult) (ragMaxContextLength : Int) :
    ragOutcome :=
  if results.length = 0 then .noRelevantContext
  else
    match buildRAGContext results ragMaxContextLength with
    | none => .noContentAvailable
    | some ctx => .generated ctx

/-! ## Progressive retrieval parameters (cmd/rag.go, lines 72–98) -/

/-- The context-size / similarity-threshold adjustment of runRAGCommand:
progressive mode shrinks large requests to a third (floor 5) and, when the
user left the threshold at its 0.0 auto value, tightens it to 0.5; afterwards
a still-unset threshold defaults to 0.5 for large requests and 0.3 otherwise.
Go's truncating integer division is `Int.tdiv`. -/
def progressiveRetrievalParams (ragContextSize : Int) (ragSimilarityThreshold : ℚ)
    (ragProgressive : Bool) : Int × ℚ :=
  let contextSize := ragContextSize
  let similarityThreshold := ragSimilarityThreshold
  let step1 : Int × ℚ :=
    if ragProgressive ∧ ragContextSize > 10 then
      let cs := Int.tdiv ragContextSize 3
      let cs := if cs < 5 then 5 else cs
      let st := if ragSimilarityThreshold = 0 then (1 : ℚ)/2 else similarityThreshold
      (cs, st)
    else (contextSize, similarityThreshold)
  let finalThreshold :=
    if step1.2 = 0 then (if ragContextSize > 20 then (1 : ℚ)/2 else (3 : ℚ)/10)
    else step1.2
  (step1.1, finalThreshold)

/-! ## Similarity search (spec §4.6)

Modelled from the spec: the implementation of `searchSimilar` is not among
the provided sources — only its callers in cmd/rag.go and cmd/benchmark.go
appear — so it is modelled from §4.6 of the specification: candidates below
the threshold are excluded, the remainder is sorted by similarity descending
with a stable sort (stability realised by an original-index tiebreak, the
standard presentation of a stable sort), deduplicated by identifier — or by a
content-derived fallback key when the identifier is absent — and only then
cut to top-K.  The scoring function is a parameter; every property proved
below holds for any scoring function, cosine similarity included. -/

/-- Modelled from the spec: the deduplication key — the record identifier, or
a content-derived fallback key when the identifier is absent. -/
def resultKey (r : searchResult) : String :=
  if r.Item.ID ≠ "" then r.Item.ID
  else goTake (getContentFromEmbedding r.Item) 200

/-- Descending-similarity order with original-index tiebreak (the sorted
order of a stable descending sort). -/
def searchLE (a b : ℕ × searchResult) : Bool :=
  decide (b.2.Similarity < a.2.Similarity ∨
    (a.2.Similarity = b.2.Similarity ∧ a.1 ≤ b.1))

/-- Modelled from the spec: score all records, exclude candidates below the
threshold, and sort by similarity descending (stable via index tiebreak). -/
def searchRanked (sim : List ℚ → List ℚ → ℚ) (query : List ℚ)
    (records : List embeddingItem) (threshold : ℚ) : List (ℕ × searchResult) :=
  (((records.map
        (fun rec => ({ Item := rec, Similarity := sim query rec.Embedding } : searchResult))).enum).filter
      (fun p => threshold ≤ p.2.Similarity)).mergeSort searchLE

/-- Keep-first deduplication by `resultKey` against an accumulator of seen
keys. -/
def dedupRankedByKey : List (ℕ × searchResult) → List String → List (ℕ × searchResult)
  | [], _ => []
  | p :: rest, seen =>
    if resultKey p.2 ∈ seen then dedupRankedByKey rest seen
    else p :: dedupRankedByKey rest (resultKey p.2 :: seen)

/-- Modelled from the spec: `search(queryVector, records, topK, threshold)` —
threshold filter, stable descending sort, dedup by key, top-K cut. -/
def searchSimilar (sim : List ℚ → List ℚ → ℚ) (query : List ℚ)
    (records : List embeddingItem) (topK : Nat) (threshold : ℚ) :
    List searchResult :=
  ((dedupRankedByKey (searchRanked sim query records threshold) []).take topK).map
    (fun p => p.2)

/-! ## Embed command, file flow (cmd embed command: runEmbedCommand and
processBatch) -/

/-- A chunk of the embeddings-ready JSON file. -/
structure crawledChunk where
  ChunkIndex : Int
  Content : String
  ID : String
  Metadata : Option (List (String × String))
  TotalChunks : Int
deriving DecidableEq

/-- An output record of the embed command: on success the embedding vector is
set, on failure the error message is set instead. -/
structure outItem where
  ID : String
  ChunkIndex : Int
  Content : String
  Metadata : Option (List (String × String))
  Embedding : Option (List ℚ)
  Error : Option String
deriving DecidableEq

/-- The single output record produced for a chunk: the embedding vector on a
successful inference call, the error message (with content and metadata
retained, no vector) on a failed one. -/
def recordForChunk (embedCall : crawledChunk → Except String (List ℚ))
    (c : crawledChunk) : outItem :=
  match embedCall c with
  | .error e => ⟨c.ID, c.ChunkIndex, c.Content, c.Metadata, none, some e⟩
  | .ok v => ⟨c.ID, c.ChunkIndex, c.Content, c.Metadata, some v, none⟩

/-- `processBatch`: process the chunks of a batch sequentially, appending one
output record per chunk to the shared output slice; an error record keeps
content and metadata and the loop continues with the next chunk. -/
def processBatch (embedCall : crawledChunk → Except String (List ℚ)) :
    List crawledChunk → List outItem → List outItem
  | [], out => out
  | c :: rest, out =>
    match embedCall c with
    | .error e =>
      processBatch embedCall rest
        (out ++ [⟨c.ID, c.ChunkIndex, c.Content, c.Metadata, none, some e⟩])
    | .ok v =>
      processBatch embedCall rest
        (out ++ [⟨c.ID, c.ChunkIndex, c.Content, c.Metadata, some v, none⟩])

/-- The keep-first deduplication by chunk ID of the file flow. -/
def dedupChunksByID : List crawledChunk → List String → List crawledChunk
  | [], _ => []
  | c :: rest, seen =>
    if c.ID ∈ seen then dedupChunksByID rest seen
    else c :: dedupChunksByID rest (c.ID :: seen)

/-- Chunk selection of the file flow: `--all` takes every chunk, a
non-negative `--chunk` index takes the first chunk with that index (exit when
absent), and otherwise the first chunk of the file is the default. -/
def selectChunksToEmbed (chunks : List crawledChunk) (embedAll : Bool)
    (embedChunk : Int) : Option (List crawledChunk) :=
  if embedAll then some chunks
  else if embedChunk ≥ 0 then
    match chunks.find? (fun c => c.ChunkIndex = embedChunk) with
    | some c => some [c]
    | none => none
  else chunks.head?.map (fun c => [c])

/-- The file flow of runEmbedCommand: reject an empty chunk file, dedup by
ID, select the chunks to embed, process them.  The division of the selected
chunks into worker batches does not affect the multiset of output records
(proved below), so the sequential order stands in for any schedule. -/
def embedFileFlow (embedCall : crawledChunk → Except String (List ℚ))
    (chunks : List crawledChunk) (embedAll : Bool) (embedChunk : Int) :
    Option (List outItem) :=
  if chunks = [] then none
  else
    (selectChunksToEmbed (dedupChunksByID chunks []) embedAll embedChunk).map
      (fun toEmbed => processBatch embedCall toEmbed [])

/-! ## Global embedding rate limiter (cmd embed command, lines 168–186 and
314–319)

The code creates one `time.Ticker` with interval `1s / embedRateRps` and a
single shared channel `rateCh`; every embedding call in `processBatch` first
receives from that channel when `rateEnabled`.  A Go ticker delivers tick
`k` (0-based) no earlier than `(k+1) * interval` after the ticker starts,
each receive consumes a tick no other receive gets, and later receives get
later ticks.  `tickerGated interval ts` states exactly that about the times
`ts` (seconds from ticker start, in receive order) of the gated calls.  The
sub-nanosecond truncation of Go's integer `time.Duration` is neglected:
`rateInterval` is the exact `1/rps` seconds. -/

/-- `rateEnabled := embedRateRps > 0.0`: a rate of zero disables limiting. -/
def rateEnabled (rps : ℚ) : Bool := decide (0 < rps)

/-- The ticker interval `1s / rps`, in seconds. -/
def rateInterval (rps : ℚ) : ℚ := 1 / rps

/-- The call times `ts` are gated by a shared ticker of the given interval:
call `i` consumes tick `ks i`, ticks are consumed in strictly increasing
order, and tick `k` exists only from time `(k+1) * interval` on. -/
def tickerGated (interval : ℚ) (ts : List ℚ) : Prop :=
  ∃ ks : ℕ → ℕ, StrictMono ks ∧
    ∀ i, (h : i < ts.length) → ((ks i : ℚ) + 1) * interval ≤ ts.get ⟨i, h⟩

/-! ## Compliance cache (unnamed/part_016, isAllowedByRobots lines 684–805)

The robots data type and its group test are abstracted by a type parameter
`R` and a predicate `testGroup` (the `FindGroup("kirk-ai-crawler") /
FindGroup("*") / group.Test(path)` chain of the robotstxt library).  The
network fetch of `host/robots.txt` is the explicit argument `fetchRobots`
(`none` models every failure: network error, body read error, or parse
error).  The model is the sequential path of the function — the single-flight
wait branch requires a concurrent peer holding `fetchInProgress` and is not
taken by consecutive sequential calls.  The best-effort file-backed cache
mirror is elided; `robotsCache` is the association list `cache` (keyed by
host, newest entry first).  Times are in nanoseconds, matching
`time.Duration`. -/

def robotsCacheTTL : Int := 30 * 60 * 1000000000

def robotsNegativeCacheTTL : Int := 10 * 60 * 1000000000

/-- An in-memory robots cache entry: parsed data (absent for a negative
entry), fetch time, failure flag. -/
structure robotsCacheEntry (R : Type) where
  data : Option R
  fetchedAt : Int
  failed : Bool

/-- Association-list lookup by host. -/
def lookupHost {R : Type} (cache : List (String × robotsCacheEntry R))
    (host : String) : Option (robotsCacheEntry R) :=
  (cache.find? (fun p => p.1 = host)).map (fun p => p.2)

/-- Map update by prepending (association-list shadowing). -/
def insertHost {R : Type} (cache : List (String × robotsCacheEntry R))
    (host : String) (e : robotsCacheEntry R) :
    List (String × robotsCacheEntry R) :=
  (host, e) :: cache

/-- Result of one isAllowedByRobots call: the verdict, the updated cache, and
whether a network fetch of the policy document was attempted. -/
structure robotsCheckResult (R : Type) where
  allowed : Bool
  cache : List (String × robotsCacheEntry R)
  fetched : Bool

/-- `isAllowedByRobots` (caching version): serve a fresh positive entry via
the group test; serve a fresh negative entry as allowed (fail-open); else
fetch — a failed fetch is cached negatively at the current time and the check
returns allowed, a successful fetch is cached positively and the group test
decides. -/
def isAllowedByRobots {R : Type} (testGroup : R → String → Bool) (now : Int)
    (fetchRobots : Option R) (cache : List (String × robotsCacheEntry R))
    (host path : String) : robotsCheckResult R :=
  let cached := lookupHost cache host
  let posHit : Option R :=
    match cached with
    | some e =>
      if !e.failed ∧ now - e.fetchedAt < robotsCacheTTL then e.data else none
    | none => none
  match posHit with
  | some d => ⟨testGroup d path, cache, false⟩
  | none =>
    let negHit : Bool :=
      match cached with
      | some e => e.failed && decide (now - e.fetchedAt < robotsNegativeCacheTTL)
      | none => false
    if negHit then ⟨true, cache, false⟩
    else
      match fetchRobots with
      | none => ⟨true, insertHost cache host ⟨none, now, true⟩, true⟩
      | some d => ⟨testGroup d path, insertHost cache host ⟨some d, now, false⟩, true⟩

/-! ## Chunker (unnamed/part_012: cleanContent, isLowQualityChunk,
chunkContent lines 14–114) -/

/-- The footer patterns removed by `cleanContent`. -/
def cleanContentPatterns : List String :=
  ["TPUSA Contributors TPUSA curates some of the country's top conservative influencers—covering a spectrum of topics ranging from politics to pop culture Charlie Kirk Benny Johnson Jack Posobiec Alex Clark Stephen Davis View all contributors",
   "Charlie Kirk Benny Johnson Jack Posobiec Alex Clark Stephen Davis View all contributors"]

/-- `cleanContent`: strip the known footer patterns, then trim. -/
def cleanContent (text : String) : String :=
  ⟨trimSpaceList
    (cleanContentPatterns.foldl
      (fun acc p => replaceAllList p.data [] acc) text.data)⟩

/-- The footer-only content patterns of `isLowQualityChunk`. -/
def lowQualityFooterPatterns : List String :=
  ["Charlie Kirk Benny Johnson Jack Posobiec Alex Clark Stephen Davis View all contributors",
   "TPUSA Contributors TPUSA curates some of the country's top conservative influencers",
   "View all contributors",
   "Sort by: Most recent Most popular OP-EDS"]

/-- The navigation-marker phrases counted by `isLowQualityChunk`. -/
def navWords : List String := ["Read more", "Article", "Show details", "View all"]

/-- Total `strings.Count` of the navigation markers in `c`. -/
def navMarkerCount (c : List Char) : Nat :=
  (navWords.map (fun w => countSubList w.data c)).sum

/-- `isLowQualityChunk`: fewer than 10 words, or a footer pattern inside a
chunk of fewer than 50 words, or navigation markers making up more than 30%
of the words (`float64(navCount*2)/float64(len(words)) > 0.3`, exact as the
rational comparison `20*navCount > 3*words`). -/
def isLowQualityChunk (content : String) : Bool :=
  let c := trimSpaceList content.data
  let words := fieldsList c
  if words.length < 10 then true
  else if lowQualityFooterPatterns.any
      (fun p => containsSubList c p.data && decide (words.length < 50)) then true
  else decide (20 * navMarkerCount c > 3 * words.length)

/-- Whitespace of the Go regexp class `\s` (`[\t\n\f\r ]` and `\v`). -/
def isRegexSpace (c : Char) : Bool :=
  c = '\t' || c = '\n' || c = '\x0c' || c = '\r' || c = ' ' || c = '\x0b'

/-- The sentence-terminating characters of the split regexp `[.!?]+\s*`. -/
def isSentencePunct (c : Char) : Bool := c = '.' || c = '!' || c = '?'

/-- Splitter for `regexp.MustCompile([.!?]+\s*).Split(text, -1)`: a separator
is a maximal run of sentence punctuation followed by maximal whitespace;
`acc` holds the current piece reversed. -/
def splitSentencesAux : List Char → List Char → List (List Char)
  | [], acc => [acc.reverse]
  | c :: rest, acc =>
    if isSentencePunct c then
      acc.reverse ::
        splitSentencesAux ((rest.dropWhile isSentencePunct).dropWhile isRegexSpace) []
    else splitSentencesAux rest (c :: acc)
termination_by l _ => l.length
decreasing_by
  · have h1 := (List.dropWhile_sublist isSentencePunct (l := rest)).length_le
    have h2 :=
      (List.dropWhile_sublist isRegexSpace
        (l := rest.dropWhile isSentencePunct)).length_le
    simp only [List.length_cons]
    omega
  · simp

/-- The sentence split of `chunkContent`. -/
def splitSentences (s : String) : List String :=
  (splitSentencesAux s.data []).map (fun l => ⟨l⟩)

/-- The token estimate `int(float64(len(strings.Fields(s))) * 1.3)`; equal to
`13*n/10` (floor) for every word count `n` below `2^49`, since `1.3` rounds
up in binary and the product rounds back to the exact decimal value. -/
def estTokens (s : String) : Nat := 13 * (fieldsList s.data).length / 10

/-- The sentence-accumulation loop of `chunkContent` (quality-filtering
version of unnamed/part_012): a sentence that would push the estimate of the
current chunk over `maxTokens` flushes the chunk (kept unless low-quality)
and starts a new one with that sentence; the final chunk is flushed the same
way. -/
def chunkLoop (maxTokens : Nat) : List String → String → List String → List String
  | [], current, chunks =>
    if trimSpace current ≠ "" then
      if ¬ (isLowQualityChunk (trimSpace current) = true) then
        chunks ++ [trimSpace current]
      else chunks
    else chunks
  | s :: rest, current, chunks =>
    let s1 := trimSpace s
    if s1 = "" then chunkLoop maxTokens rest current chunks
    else
      let est := estTokens (current ++ " " ++ s1)
      if est > maxTokens ∧ current ≠ "" then
        let cand := trimSpace current
        chunkLoop maxTokens rest s1
          (if ¬ (isLowQualityChunk cand = true) then chunks ++ [cand] else chunks)
      else chunkLoop maxTokens rest (if current = "" then s1 else current ++ " " ++ s1) chunks

/-- `chunkContent` (unnamed/part_012): clean, split into sentences,
accumulate. -/
def chunkContent (text : String) (maxTokens : Nat) : List String :=
  let cleaned := cleanContent text
  if trimSpace cleaned = "" then []
  else chunkLoop maxTokens (splitSentences cleaned) "" []

/-! ## URL normalization (unnamed/part_016, normalizeURL lines 508–531)

`normalizeURL` trims the raw string, parses it with `net/url.Parse`, returns
`""` on a parse error or a non-absolute URL, clears the fragment, collapses
trailing slashes of the path (restoring `"/"` for an emptied path) and
re-serialises with `URL.String()`.  The standard-library parser is modelled
for the grammar `scheme://host[/path][?query][#fragment]` over
whitespace-free strings: the scheme is letters/digits/`+`/`-`/`.` starting
with a letter (lowercased by `Parse`), the host runs to the first `/`, the
fragment is everything after the first `#` and the query everything after the
first `?` before it, exactly as in `net/url`.  Inputs outside this grammar —
relative references, opaque (non-`//`) URLs, strings with interior
whitespace or percent-escapes — are mapped to the function's `""` error
result; Go escapes or reparses those forms with the same fixed-point
behaviour, so the restriction loses no generality for the idempotence
property. -/

/-- Characters admissible in a scheme (`[a-zA-Z][a-zA-Z0-9+-.]*`). -/
def isSchemeChar (c : Char) : Bool :=
  c.isAlpha || c.isDigit || c = '+' || c = '-' || c = '.'

/-- ASCII lowercasing, as applied by `net/url.Parse` to the scheme. -/
def asciiToLower (c : Char) : Char :=
  if 65 ≤ c.toNat ∧ c.toNat ≤ 90 then Char.ofNat (c.toNat + 32) else c

/-- Split at the first occurrence of `sep`: `some (pre, post)` with
`l = pre ++ sep :: post` and `sep ∉ pre`, or `none` when `sep ∉ l`. -/
def splitAtChar (sep : Char) : List Char → Option (List Char × List Char)
  | [] => none
  | c :: rest =>
    if c = sep then some ([], rest)
    else (splitAtChar sep rest).map (fun p => (c :: p.1, p.2))

/-- The components of a parsed absolute URL (`net/url.URL`, the fields the
embedded code touches). -/
structure GoURL where
  scheme : List Char
  host : List Char
  path : List Char
  query : Option (List Char)
  fragment : Option (List Char)
deriving DecidableEq

/-- Fragment stage of `net/url.Parse`: everything after the first `#`. -/
def parseFragment (l : List Char) : List Char × Option (List Char) :=
  match splitAtChar '#' l with
  | some p => (p.1, some p.2)
  | none => (l, none)

/-- Query stage of `net/url.Parse`: everything after the first `?` (before
the fragment). -/
def parseQuery (l : List Char) : List Char × Option (List Char) :=
  match splitAtChar '?' l with
  | some p => (p.1, some p.2)
  | none => (l, none)

/-- Scheme/authority stage of `net/url.Parse`: a valid scheme, a colon, and
the `//` marking an authority; yields the raw scheme and the host-path
remainder. -/
def parseSchemeRest (core : List Char) : Option (List Char × List Char) :=
  match splitAtChar ':' core with
  | none => none
  | some (sch, rest) =>
    if startsWithList rest ['/', '/'] && sch.head?.any Char.isAlpha &&
        sch.all isSchemeChar
    then some (sch, rest.drop 2)
    else none

/-- `net/url.Parse` on the modelled grammar (see the section comment):
fragment split first, then query, then `scheme://`; the host runs to the
first slash and the path is the rest; the scheme is lowercased. -/
def parseURLList (l : List Char) : Option GoURL :=
  if l.any isGoSpace then none
  else
    let bf := parseFragment l
    let cq := parseQuery bf.1
    match parseSchemeRest cq.1 with
    | none => none
    | some (sch, hp) =>
      some { scheme := sch.map asciiToLower,
             host := hp.takeWhile (fun c => c ≠ '/'),
             path := hp.dropWhile (fun c => c ≠ '/'),
             query := cq.2, fragment := bf.2 }

/-- `URL.String()` for an authority-form URL: the `?` survives for a present
but empty query (Go's `ForceQuery`), a cleared fragment is omitted. -/
def urlToStringList (u : GoURL) : List Char :=
  u.scheme ++ [':', '/', '/'] ++ u.host ++ u.path ++
    (match u.query with | none => [] | some q => '?' :: q) ++
    (match u.fragment with | none => [] | some f => '#' :: f)

/-- `strings.TrimRight(path, "/")`. -/
def trimRightSlash (l : List Char) : List Char :=
  (l.reverse.dropWhile (fun c => c = '/')).reverse

/-- `normalizeURL` on character lists: trim, parse (`""` on failure), clear
the fragment, collapse trailing slashes (restoring `"/"`), re-serialise. -/
def normalizeURLList (l : List Char) : List Char :=
  let r := trimSpaceList l
  if r = [] then []
  else
    match parseURLList r with
    | none => []
    | some u =>
      let p := trimRightSlash u.path
      let p := if p = [] then ['/'] else p
      urlToStringList { u with path := p, fragment := none }

/-- `normalizeURL` (unnamed/part_016). -/
def normalizeURL (s : String) : String := ⟨normalizeURLList s.data⟩

/-! ## Helper lemmas -/

/-- `processBatch` appends exactly the per-chunk records of its batch, in
batch order, to the output it was given. -/
theorem processBatch_eq_append (embedCall : crawledChunk → Except String (List ℚ))
    (batch : List crawledChunk) (out : List outItem) :
    processBatch embedCall batch out = out ++ batch.map (recordForChunk embedCall) := by
  induction batch generalizing out with
  | nil => simp [processBatch]
  | cons c rest ih =>
    cases h : embedCall c with
    | error e => simp [processBatch, h, ih, recordForChunk]
    | ok v => simp [processBatch, h, ih, recordForChunk]

/-- `goTake` takes at most `n` characters. -/
theorem goLen_goTake (s : String) (n : Nat) : goLen (goTake s n) = min n (goLen s) := by
  simp [goLen, goTake]

/-- If the assembly loop ever collects a part, the budget was positive: parts
are appended only while `maxLength - totalLength > 0`, and the running total
never goes below its starting point. -/
theorem ragAsmLoop_parts_changed_pos (maxLength : Int) :
    ∀ (results : List searchResult) (st : ragAsmState), 0 ≤ st.totalLength →
      (ragAsmLoop maxLength results st).contextParts ≠ st.contextParts →
      0 < maxLength := by
  intro results
  induction results with
  | nil => intro st h0 hne; simp [ragAsmLoop] at hne
  | cons r rest ih =>
    intro st h0 hne
    by_cases hseen : chunkKey r ∈ st.seenKeys
    · rw [ragAsmLoop, if_pos hseen] at hne
      exact ih st h0 hne
    · by_cases hcont : getContentFromEmbedding r.Item = ""
      · rw [ragAsmLoop, if_neg hseen] at hne
        rw [if_pos hcont] at hne
        exact ih { st with seenKeys := st.seenKeys ++ [chunkKey r] } h0 hne
      · by_cases hrem : maxLength - st.totalLength ≤ 0
        · rw [ragAsmLoop, if_neg hseen] at hne
          simp only [if_neg hcont, if_pos hrem] at hne
          simp at hne
        · omega

/-- Lowering an upper-case ASCII letter adds 32 to its code point. -/
theorem asciiToLower_toNat {c : Char} (h1 : 65 ≤ c.toNat) (h2 : c.toNat ≤ 90) :
    (asciiToLower c).toNat = c.toNat + 32 := by
  rw [asciiToLower, if_pos ⟨h1, h2⟩]
  have hv : Nat.isValidChar (c.toNat + 32) := Or.inl (by omega)
  rw [Char.ofNat, dif_pos hv]
  simp [Char.ofNatAux, Char.toNat, UInt32.toNat, BitVec.toNat_ofNatLt]

/-- Characters outside the upper-case ASCII range are fixed by lowering. -/
theorem asciiToLower_eq_self {c : Char} (h : ¬ (65 ≤ c.toNat ∧ c.toNat ≤ 90)) :
    asciiToLower c = c := if_neg h

/-- ASCII lowering is idempotent. -/
theorem asciiToLower_idem (c : Char) :
    asciiToLower (asciiToLower c) = asciiToLower c := by
  by_cases h : 65 ≤ c.toNat ∧ c.toNat ≤ 90
  · have ht := asciiToLower_toNat h.1 h.2
    exact asciiToLower_eq_self (by omega)
  · rw [asciiToLower_eq_self h, asciiToLower_eq_self h]

/-- ASCII lowering preserves letters. -/
theorem isAlpha_asciiToLower {c : Char} (h : c.isAlpha = true) :
    (asciiToLower c).isAlpha = true := by
  by_cases hr : 65 ≤ c.toNat ∧ c.toNat ≤ 90
  · have ht := asciiToLower_toNat hr.1 hr.2
    simp only [Char.isAlpha, Bool.or_eq_true]
    right
    simp only [Char.isLower, Bool.and_eq_true, decide_eq_true_eq]
    constructor
    · show 97 ≤ (asciiToLower c).toNat
      omega
    · show (asciiToLower c).toNat ≤ 122
      omega
  · rw [asciiToLower_eq_self hr]
    exact h

/-- ASCII lowering preserves scheme characters. -/
theorem isSchemeChar_asciiToLower {c : Char} (h : isSchemeChar c = true) :
    isSchemeChar (asciiToLower c) = true := by
  by_cases hr : 65 ≤ c.toNat ∧ c.toNat ≤ 90
  · have ht := asciiToLower_toNat hr.1 hr.2
    simp only [isSchemeChar, Bool.or_eq_true]
    left; left; left; left
    simp only [Char.isAlpha, Bool.or_eq_true]
    right
    simp only [Char.isLower, Bool.and_eq_true, decide_eq_true_eq]
    constructor
    · show 97 ≤ (asciiToLower c).toNat
      omega
    · show (asciiToLower c).toNat ≤ 122
      omega
  · rw [asciiToLower_eq_self hr]
    exact h

/-- A scheme character is not a URL delimiter and not whitespace. -/
theorem isSchemeChar_props {c : Char} (h : isSchemeChar c = true) :
    c ≠ ':' ∧ c ≠ '/' ∧ c ≠ '#' ∧ c ≠ '?' ∧ isGoSpace c = false := by
  refine ⟨?_, ?_, ?_, ?_, ?_⟩
  · rintro rfl; revert h; decide
  · rintro rfl; revert h; decide
  · rintro rfl; revert h; decide
  · rintro rfl; revert h; decide
  · by_contra hsp
    have hsp2 : isGoSpace c = true := by
      cases hx : isGoSpace c
      · exact absurd hx hsp
      · rfl
    simp only [isGoSpace, Bool.or_eq_true, decide_eq_true_eq] at hsp2
    rcases hsp2 with ((((rfl | rfl) | rfl) | rfl) | rfl) | rfl <;> revert h <;> decide

/-- `splitAtChar` misses exactly when the separator is absent. -/
theorem splitAtChar_eq_none {sep : Char} :
    ∀ {l : List Char}, sep ∉ l → splitAtChar sep l = none := by
  intro l
  induction l with
  | nil => intro _; rfl
  | cons c rest ih =>
    intro h
    rw [splitAtChar, if_neg (by rintro rfl; exact h (List.mem_cons_self _ _)),
      ih (fun hm => h (List.mem_cons_of_mem _ hm))]
    rfl

/-- A successful `splitAtChar` decomposes the list at the first separator. -/
theorem splitAtChar_some_spec {sep : Char} :
    ∀ {l a b : List Char}, splitAtChar sep l = some (a, b) →
      l = a ++ sep :: b ∧ sep ∉ a := by
  intro l
  induction l with
  | nil => intro a b h; exact Option.noConfusion h
  | cons c rest ih =>
    intro a b h
    rw [splitAtChar] at h
    by_cases hc : c = sep
    · rw [if_pos hc] at h
      obtain ⟨rfl, rfl⟩ : [] = a ∧ rest = b := by
        constructor <;> [exact congrArg Prod.fst (Option.some_inj.mp h);
          exact congrArg Prod.snd (Option.some_inj.mp h)]
      exact ⟨by rw [hc]; rfl, by simp⟩
    · rw [if_neg hc] at h
      cases hs : splitAtChar sep rest with
      | none => rw [hs] at h; exact absurd h (by simp)
      | some p =>
        rw [hs] at h
        obtain ⟨a1, b1⟩ := p
        have ha : c :: a1 = a := congrArg Prod.fst (Option.some_inj.mp h)
        have hb : b1 = b := congrArg Prod.snd (Option.some_inj.mp h)
        obtain ⟨hdec, hnot⟩ := ih hs
        subst ha hb
        refine ⟨by rw [List.cons_append, ← hdec], ?_⟩
        intro hmem
        rcases List.mem_cons.mp hmem with h1 | h1
        · exact hc h1.symm
        · exact hnot h1

/-- `splitAtChar` finds the separator placed after a clean prefix. -/
theorem splitAtChar_append {sep : Char} :
    ∀ {pre : List Char}, sep ∉ pre → ∀ (post : List Char),
      splitAtChar sep (pre ++ sep :: post) = some (pre, post) := by
  intro pre
  induction pre with
  | nil => intro _ post; simp [splitAtChar]
  | cons c t ih =>
    intro h post
    rw [List.cons_append, splitAtChar,
      if_neg (by rintro rfl; exact h (List.mem_cons_self _ _)),
      ih (fun hm => h (List.mem_cons_of_mem _ hm)) post]
    rfl

/-- `takeWhile` passes over a prefix that satisfies the predicate. -/
theorem takeWhile_append_all {p : Char → Bool} :
    ∀ {a : List Char}, (∀ x ∈ a, p x = true) → ∀ (b : List Char),
      List.takeWhile p (a ++ b) = a ++ List.takeWhile p b := by
  intro a
  induction a with
  | nil => intro _ b; rfl
  | cons c t ih =>
    intro h b
    rw [List.cons_append, List.takeWhile_cons_of_pos (h c (List.mem_cons_self _ _)),
      ih (fun x hx => h x (List.mem_cons_of_mem _ hx)) b, List.cons_append]

/-- `dropWhile` consumes a prefix that satisfies the predicate. -/
theorem dropWhile_append_all {p : Char → Bool} :
    ∀ {a : List Char}, (∀ x ∈ a, p x = true) → ∀ (b : List Char),
      List.dropWhile p (a ++ b) = List.dropWhile p b := by
  intro a
  induction a with
  | nil => intro _ b; rfl
  | cons c t ih =>
    intro h b
    rw [List.cons_append, List.dropWhile_cons_of_pos (h c (List.mem_cons_self _ _)),
      ih (fun x hx => h x (List.mem_cons_of_mem _ hx)) b]

/-- The head surviving a `dropWhile` fails the predicate. -/
theorem dropWhile_head_false {p : Char → Bool} :
    ∀ (l : List Char) (d : Char) (t : List Char),
      List.dropWhile p l = d :: t → p d = false := by
  intro l
  induction l with
  | nil => intro d t h; exact Option.noConfusion (congrArg List.head? h)
  | cons c rest ih =>
    intro d t h
    by_cases hc : p c = true
    · rw [List.dropWhile_cons_of_pos hc] at h
      exact ih d t h
    · rw [List.dropWhile_cons_of_neg (by simpa using hc)] at h
      injection h with h1 h2
      subst h1
      exact eq_false_of_ne_true hc

/-- Trimming both ends fixes a whitespace-free list. -/
theorem trimSpaceList_eq_self {l : List Char}
    (h : ∀ c ∈ l, isGoSpace c = false) : trimSpaceList l = l := by
  have hdrop : ∀ (x : List Char), (∀ c ∈ x, isGoSpace c = false) →
      List.dropWhile isGoSpace x = x := by
    intro x hx
    cases x with
    | nil => rfl
    | cons c t => exact List.dropWhile_cons_of_neg (by simp [hx c (List.mem_cons_self _ _)])
  rw [trimSpaceList, trimRightList,
    hdrop _ (fun c hc => h c (List.mem_reverse.mp hc)), List.reverse_reverse,
    trimLeftList, hdrop _ h]

/-- Decomposition of a list into its slash-trimmed prefix and the trailing
slashes. -/
theorem trimRightSlash_decomp (l : List Char) :
    l = trimRightSlash l ++ (l.reverse.takeWhile (fun c => c = '/')).reverse := by
  conv_lhs => rw [← List.reverse_reverse l,
    ← List.takeWhile_append_dropWhile (p := fun c => c = '/') (l := l.reverse)]
  rw [List.reverse_append]
  rfl

/-- `trimRightSlash` is idempotent. -/
theorem trimRightSlash_idem (l : List Char) :
    trimRightSlash (trimRightSlash l) = trimRightSlash l := by
  rw [trimRightSlash, trimRightSlash, List.reverse_reverse,
    List.dropWhile_idempotent]

/-- Members of the slash-trimmed prefix are members of the list. -/
theorem mem_trimRightSlash {x : Char} {l : List Char}
    (h : x ∈ trimRightSlash l) : x ∈ l := by
  have hx2 : x ∈ trimRightSlash l ++
      (l.reverse.takeWhile (fun c => c = '/')).reverse :=
    List.mem_append.mpr (Or.inl h)
  rw [← trimRightSlash_decomp l] at hx2
  exact hx2

/-- The slash-trimmed prefix starts where the list starts. -/
theorem head_trimRightSlash {l : List Char} (h : trimRightSlash l ≠ []) :
    (trimRightSlash l).head? = l.head? := by
  have hd := trimRightSlash_decomp l
  cases ht : trimRightSlash l with
  | nil => exact absurd ht h
  | cons a t =>
    rw [ht] at hd
    rw [hd, List.cons_append]
    rfl

/-- A property holding on every component of a URL holds on every character
of its serialisation. -/
theorem urlToString_all {P : Char → Prop} {u : GoURL}
    (hs : ∀ c ∈ u.scheme, P c) (hcolon : P ':') (hslash : P '/')
    (hh : ∀ c ∈ u.host, P c) (hp : ∀ c ∈ u.path, P c)
    (hq : ∀ q, u.query = some q → P '?' ∧ ∀ c ∈ q, P c)
    (hf : ∀ f, u.fragment = some f → P '#' ∧ ∀ c ∈ f, P c) :
    ∀ c ∈ urlToStringList u, P c := by
  intro c hc
  rcases u with ⟨sch, host, path, query, frag⟩
  simp only at hs hh hp hq hf
  rcases query with _ | q <;> rcases frag with _ | f <;>
    simp only [urlToStringList, List.mem_append, List.mem_cons,
      List.not_mem_nil, List.append_nil, or_false, false_or] at hc
  · rcases hc with (((h | h | h | h) | h) | h)
    · exact hs c h
    · exact h ▸ hcolon
    · exact h ▸ hslash
    · exact h ▸ hslash
    · exact hh c h
    · exact hp c h
  · rcases hc with ((((h | h | h | h) | h) | h) | h | h)
    · exact hs c h
    · exact h ▸ hcolon
    · exact h ▸ hslash
    · exact h ▸ hslash
    · exact hh c h
    · exact hp c h
    · exact h ▸ (hf f rfl).1
    · exact (hf f rfl).2 c h
  · rcases hc with ((((h | h | h | h) | h) | h) | h | h)
    · exact hs c h
    · exact h ▸ hcolon
    · exact h ▸ hslash
    · exact h ▸ hslash
    · exact hh c h
    · exact hp c h
    · exact h ▸ (hq q rfl).1
    · exact (hq q rfl).2 c h
  · rcases hc with (((((h | h | h | h) | h) | h) | h | h) | h | h)
    · exact hs c h
    · exact h ▸ hcolon
    · exact h ▸ hslash
    · exact h ▸ hslash
    · exact hh c h
    · exact hp c h
    · exact h ▸ (hq q rfl).1
    · exact (hq q rfl).2 c h
    · exact h ▸ (hf f rfl).1
    · exact (hf f rfl).2 c h

/-- A missed `splitAtChar` means the separator is absent. -/
theorem splitAtChar_none_spec {sep : Char} :
    ∀ {l : List Char}, splitAtChar sep l = none → sep ∉ l := by
  intro l
  induction l with
  | nil => intro _ hm; exact List.not_mem_nil _ hm
  | cons c rest ih =>
    intro h hm
    rw [splitAtChar] at h
    by_cases hc : c = sep
    · rw [if_pos hc] at h
      exact Option.noConfusion h
    · rw [if_neg hc] at h
      rcases List.mem_cons.mp hm with h1 | h1
      · exact hc h1.symm
      · exact ih (Option.map_eq_none.mp h) h1

/-- The fragment stage returns a `#`-free prefix of its input. -/
theorem parseFragment_spec (l : List Char) :
    '#' ∉ (parseFragment l).1 ∧ ∀ c ∈ (parseFragment l).1, c ∈ l := by
  rw [parseFragment]
  cases hsf : splitAtChar '#' l with
  | none => exact ⟨splitAtChar_none_spec hsf, fun c hc => hc⟩
  | some p =>
    obtain ⟨hdec, hnot⟩ := splitAtChar_some_spec hsf
    exact ⟨hnot, fun c hc => hdec ▸ List.mem_append.mpr (Or.inl hc)⟩

/-- The query stage returns a `?`-free prefix and a query drawn from its
input. -/
theorem parseQuery_spec (l : List Char) :
    '?' ∉ (parseQuery l).1 ∧ (∀ c ∈ (parseQuery l).1, c ∈ l) ∧
      ((parseQuery l).2 = none ∨
        ∃ q, (parseQuery l).2 = some q ∧ ∀ c ∈ q, c ∈ l) := by
  rw [parseQuery]
  cases hsq : splitAtChar '?' l with
  | none => exact ⟨splitAtChar_none_spec hsq, fun c hc => hc, Or.inl rfl⟩
  | some p =>
    obtain ⟨hdec, hnot⟩ := splitAtChar_some_spec hsq
    refine ⟨hnot, fun c hc => hdec ▸ List.mem_append.mpr (Or.inl hc),
      Or.inr ⟨p.2, rfl, fun c hc => ?_⟩⟩
    rw [hdec]
    exact List.mem_append.mpr (Or.inr (List.mem_cons_of_mem _ hc))

/-- The scheme stage accepts only a valid scheme and returns a host-path
remainder drawn from its input. -/
theorem parseSchemeRest_spec {core sch hp : List Char}
    (h : parseSchemeRest core = some (sch, hp)) :
    sch ≠ [] ∧ (∀ c ∈ sch, isSchemeChar c = true) ∧
      (∃ c0 t, sch = c0 :: t ∧ c0.isAlpha = true) ∧ ∀ c ∈ hp, c ∈ core := by
  rw [parseSchemeRest] at h
  cases hsp : splitAtChar ':' core with
  | none => rw [hsp] at h; exact Option.noConfusion h
  | some p =>
    rw [hsp] at h
    obtain ⟨a, rest⟩ := p
    obtain ⟨hdec, _⟩ := splitAtChar_some_spec hsp
    have h2 : (if (startsWithList rest ['/', '/'] && a.head?.any Char.isAlpha &&
        a.all isSchemeChar) = true
      then some (a, rest.drop 2) else none) = some (sch, hp) := h
    clear h
    by_cases hguard : (startsWithList rest ['/', '/'] && a.head?.any Char.isAlpha &&
        a.all isSchemeChar) = true
    · rw [if_pos hguard] at h2
      simp only [Bool.and_eq_true] at hguard
      obtain ⟨⟨_, halpha⟩, hall⟩ := hguard
      have hsch : a = sch := congrArg Prod.fst (Option.some_inj.mp h2)
      have hhp : rest.drop 2 = hp := congrArg Prod.snd (Option.some_inj.mp h2)
      subst hsch hhp
      cases a with
      | nil => exact absurd halpha (by simp)
      | cons c0 sch1 =>
        refine ⟨by simp, ?_, ⟨c0, sch1, rfl, by simpa using halpha⟩, ?_⟩
        · intro c hc
          exact List.all_eq_true.mp hall c hc
        · intro c hc
          have hc2 : c ∈ rest := (List.drop_sublist 2 rest).subset hc
          rw [hdec]
          exact List.mem_append.mpr (Or.inr (List.mem_cons_of_mem _ hc2))
    · rw [if_neg hguard] at h2
      exact Option.noConfusion h2

/-- Invariants of every successfully parsed URL: a valid lowercased scheme,
a host free of delimiters, a path that is empty or `/`-rooted and free of
`#`/`?`, a `#`-free query, and no whitespace anywhere. -/
theorem parseURLList_inv {r : List Char} {u : GoURL} (h : parseURLList r = some u) :
    u.scheme ≠ [] ∧ (∀ c ∈ u.scheme, isSchemeChar c = true) ∧
      (∃ c0 t, u.scheme = c0 :: t ∧ c0.isAlpha = true) ∧
      u.scheme.map asciiToLower = u.scheme ∧
      '/' ∉ u.host ∧ '#' ∉ u.host ∧ '?' ∉ u.host ∧
      (∀ c ∈ u.host, isGoSpace c = false) ∧
      '#' ∉ u.path ∧ '?' ∉ u.path ∧ (∀ c ∈ u.path, isGoSpace c = false) ∧
      (u.path = [] ∨ u.path.head? = some '/') ∧
      (u.query = none ∨
        ∃ q, u.query = some q ∧ '#' ∉ q ∧ ∀ c ∈ q, isGoSpace c = false) := by
  rw [parseURLList] at h
  by_cases hsp0 : r.any isGoSpace = true
  · rw [if_pos hsp0] at h
    exact Option.noConfusion h
  · rw [if_neg hsp0] at h
    have hnospace : ∀ c ∈ r, isGoSpace c = false := by
      intro c hc
      cases hx : isGoSpace c
      · rfl
      · exact absurd (List.any_eq_true.mpr ⟨c, hc, hx⟩) hsp0
    have h2 : (match parseSchemeRest (parseQuery (parseFragment r).1).1 with
      | none => none
      | some (sch, hp) =>
        some ({ scheme := sch.map asciiToLower,
                host := hp.takeWhile (fun c => c ≠ '/'),
                path := hp.dropWhile (fun c => c ≠ '/'),
                query := (parseQuery (parseFragment r).1).2,
                fragment := (parseFragment r).2 } : GoURL)) = some u := h
    clear h
    cases hps : parseSchemeRest (parseQuery (parseFragment r).1).1 with
    | none => rw [hps] at h2; exact Option.noConfusion h2
    | some p =>
      rw [hps] at h2
      obtain ⟨sch, hp⟩ := p
      have h3 : GoURL.mk (sch.map asciiToLower)
          (hp.takeWhile (fun c => c ≠ '/')) (hp.dropWhile (fun c => c ≠ '/'))
          ((parseQuery (parseFragment r).1).2) ((parseFragment r).2) = u :=
        Option.some_inj.mp h2
      subst h3
      dsimp only
      obtain ⟨hbf_hash, hbf_sub⟩ := parseFragment_spec r
      obtain ⟨hcq_q, hcq_sub, hcq_query⟩ := parseQuery_spec (parseFragment r).1
      obtain ⟨hsch_ne, hsch_all, hsch_head, hhp_sub⟩ := parseSchemeRest_spec hps
      have hhp_bf : ∀ c ∈ hp, c ∈ (parseFragment r).1 :=
        fun c hc => hcq_sub c (hhp_sub c hc)
      have hhp_r : ∀ c ∈ hp, c ∈ r := fun c hc => hbf_sub c (hhp_bf c hc)
      have hhost_hp : ∀ c ∈ hp.takeWhile (fun c => c ≠ '/'), c ∈ hp :=
        fun c hc => (List.takeWhile_sublist _).subset hc
      have hpath_hp : ∀ c ∈ hp.dropWhile (fun c => c ≠ '/'), c ∈ hp :=
        fun c hc => (List.dropWhile_sublist _).subset hc
      refine ⟨?_, ?_, ?_, ?_, ?_, ?_, ?_, ?_, ?_, ?_, ?_, ?_, ?_⟩
      · intro hmap
        exact hsch_ne (List.map_eq_nil_iff.mp hmap)
      · intro c hc
        obtain ⟨c1, hc1, rfl⟩ := List.mem_map.mp hc
        exact isSchemeChar_asciiToLower (hsch_all c1 hc1)
      · obtain ⟨c0, t, heq, halpha⟩ := hsch_head
        exact ⟨asciiToLower c0, t.map asciiToLower, by rw [heq]; rfl,
          isAlpha_asciiToLower halpha⟩
      · rw [List.map_map]
        exact List.map_congr_left fun c _ => asciiToLower_idem c
      · intro hm
        have hdec2 := List.mem_takeWhile_imp hm
        simp at hdec2
      · intro hm
        exact hbf_hash (hhp_bf _ (hhost_hp _ hm))
      · intro hm
        exact hcq_q (hhp_sub _ (hhost_hp _ hm))
      · intro c hc
        exact hnospace c (hhp_r c (hhost_hp c hc))
      · intro hm
        exact hbf_hash (hhp_bf _ (hpath_hp _ hm))
      · intro hm
        exact hcq_q (hhp_sub _ (hpath_hp _ hm))
      · intro c hc
        exact hnospace c (hhp_r c (hpath_hp c hc))
      · cases hd : hp.dropWhile (fun c => c ≠ '/') with
        | nil => exact Or.inl rfl
        | cons d t =>
          refine Or.inr ?_
          have hdf := dropWhile_head_false hp d t hd
          have : d = '/' := by
            by_contra hne
            rw [decide_eq_true hne] at hdf
            exact Bool.noConfusion hdf
          subst this
          rfl
      · rcases hcq_query with hn | ⟨q, hq, hsub⟩
        · exact Or.inl hn
        · refine Or.inr ⟨q, hq, fun hm => hbf_hash (hsub _ hm),
            fun c hc => hnospace c (hbf_sub c (hsub c hc))⟩

/-- Re-parsing a serialised URL that satisfies the parser invariants (with
no fragment) recovers it exactly. -/
theorem parse_urlToString {u : GoURL}
    (hs_all : ∀ c ∈ u.scheme, isSchemeChar c = true)
    (hs_head : ∃ c0 t, u.scheme = c0 :: t ∧ c0.isAlpha = true)
    (hs_low : u.scheme.map asciiToLower = u.scheme)
    (hh_slash : '/' ∉ u.host) (hh_hash : '#' ∉ u.host) (hh_q : '?' ∉ u.host)
    (hh_sp : ∀ c ∈ u.host, isGoSpace c = false)
    (hp_hash : '#' ∉ u.path) (hp_q : '?' ∉ u.path)
    (hp_sp : ∀ c ∈ u.path, isGoSpace c = false)
    (hp_head : u.path = [] ∨ u.path.head? = some '/')
    (hq : u.query = none ∨
      ∃ q, u.query = some q ∧ '#' ∉ q ∧ ∀ c ∈ q, isGoSpace c = false)
    (hf : u.fragment = none) :
    parseURLList (urlToStringList u) = some u := by
  have hnospace : ∀ c ∈ urlToStringList u, isGoSpace c = false := by
    refine urlToString_all (fun c hc => (isSchemeChar_props (hs_all c hc)).2.2.2.2)
      (by decide) (by decide) hh_sp hp_sp ?_ ?_
    · intro q hq2
      rcases hq with hn | ⟨q1, hq1, _, hsp1⟩
      · rw [hn] at hq2; exact Option.noConfusion hq2
      · rw [hq1] at hq2
        refine ⟨by decide, ?_⟩
        injection hq2 with he
        subst he
        exact hsp1
    · intro f hf2
      rw [hf] at hf2
      exact Option.noConfusion hf2
  have hnohash : '#' ∉ urlToStringList u := by
    intro hm
    refine (urlToString_all (P := fun c => c ≠ '#')
      (fun c hc => (isSchemeChar_props (hs_all c hc)).2.2.1) (by decide) (by decide)
      (fun c hc he => hh_hash (he ▸ hc)) (fun c hc he => hp_hash (he ▸ hc))
      ?_ ?_ '#' hm) rfl
    · intro q hq2
      rcases hq with hn | ⟨q1, hq1, hqh, _⟩
      · rw [hn] at hq2; exact Option.noConfusion hq2
      · rw [hq1] at hq2
        injection hq2 with he
        subst he
        exact ⟨by decide, fun c hc he => hqh (he ▸ hc)⟩
    · intro f hf2
      rw [hf] at hf2
      exact Option.noConfusion hf2
  have hanysp : ¬ ((urlToStringList u).any isGoSpace = true) := by
    intro hany
    obtain ⟨c, hc, hcsp⟩ := List.any_eq_true.mp hany
    rw [hnospace c hc] at hcsp
    exact Bool.noConfusion hcsp
  have hfr : parseFragment (urlToStringList u) = (urlToStringList u, none) := by
    rw [parseFragment, splitAtChar_eq_none hnohash]
  obtain ⟨sch, host, path, query, frag⟩ := u
  dsimp only at *
  subst hf
  have hall : ∀ x ∈ host, (fun c => decide (c ≠ '/')) x = true :=
    fun x hx => decide_eq_true (fun he => hh_slash (he ▸ hx))
  have htw : (host ++ path).takeWhile (fun c => c ≠ '/') = host := by
    rcases hp_head with rfl | hhead
    · rw [List.append_nil]
      have h6 := takeWhile_append_all hall ([] : List Char)
      simpa using h6
    · cases path with
      | nil => exact absurd hhead (by simp)
      | cons d pt =>
        have hd : d = '/' := by
          simpa using hhead
        subst hd
        rw [takeWhile_append_all hall ('/' :: pt),
          List.takeWhile_cons_of_neg (by simp), List.append_nil]
  have hdw : (host ++ path).dropWhile (fun c => c ≠ '/') = path := by
    rcases hp_head with rfl | hhead
    · rw [List.append_nil]
      have h6 := dropWhile_append_all hall ([] : List Char)
      simpa using h6
    · cases path with
      | nil => exact absurd hhead (by simp)
      | cons d pt =>
        have hd : d = '/' := by
          simpa using hhead
        subst hd
        rw [dropWhile_append_all hall ('/' :: pt),
          List.dropWhile_cons_of_neg (by simp)]
  obtain ⟨c0, t, hsch, halpha⟩ := hs_head
  have hcolon : ':' ∉ sch :=
    fun hm => (isSchemeChar_props (hs_all ':' hm)).1 rfl
  have hsr : parseSchemeRest
      (sch ++ ':' :: ('/' :: '/' :: (host ++ path))) = some (sch, host ++ path) := by
    rw [parseSchemeRest, splitAtChar_append hcolon ('/' :: '/' :: (host ++ path))]
    have hcond : (startsWithList ('/' :: '/' :: (host ++ path)) ['/', '/'] &&
        sch.head?.any Char.isAlpha && sch.all isSchemeChar) = true := by
      rw [hsch]
      simp only [startsWithList, List.head?, Option.any_some, Bool.and_eq_true]
      exact ⟨⟨by decide, halpha⟩, List.all_eq_true.mpr (hsch ▸ hs_all)⟩
    show (if (startsWithList ('/' :: '/' :: (host ++ path)) ['/', '/'] &&
        sch.head?.any Char.isAlpha && sch.all isSchemeChar) = true
      then some (sch, ('/' :: '/' :: (host ++ path)).drop 2) else none) =
      some (sch, host ++ path)
    rw [if_pos hcond]
    rfl
  rcases hq with rfl | ⟨q, rfl, hqh, _⟩
  · have hout : urlToStringList (GoURL.mk sch host path none none) =
        sch ++ ':' :: ('/' :: '/' :: (host ++ path)) := by
      simp [urlToStringList, List.append_assoc]
    have hnoq : '?' ∉ urlToStringList (GoURL.mk sch host path none none) := by
      intro hm
      refine (urlToString_all (P := fun c => c ≠ '?')
        (fun c hc => (isSchemeChar_props (hs_all c hc)).2.2.2.1) (by decide)
        (by decide) (fun c hc he => hh_q (he ▸ hc)) (fun c hc he => hp_q (he ▸ hc))
        (fun q2 hq2 => Option.noConfusion hq2)
        (fun f hf2 => Option.noConfusion hf2) '?' hm) rfl
    have hqr : parseQuery (urlToStringList (GoURL.mk sch host path none none)) =
        (urlToStringList (GoURL.mk sch host path none none), none) := by
      rw [parseQuery, splitAtChar_eq_none hnoq]
    have hsrOut : parseSchemeRest
        (urlToStringList (GoURL.mk sch host path none none)) =
        some (sch, host ++ path) := by
      rw [hout]
      exact hsr
    rw [parseURLList, if_neg hanysp]
    simp only [hfr, hqr, hsrOut]
    rw [hs_low, htw, hdw]
  · have hpre : urlToStringList (GoURL.mk sch host path (some q) none) =
        (sch ++ ':' :: ('/' :: '/' :: (host ++ path))) ++ '?' :: q := by
      simp [urlToStringList, List.append_assoc]
    have hnoq : '?' ∉ sch ++ ':' :: ('/' :: '/' :: (host ++ path)) := by
      intro hm
      rcases List.mem_append.mp hm with h1 | h1
      · exact (isSchemeChar_props (hs_all '?' h1)).2.2.2.1 rfl
      · rcases List.mem_cons.mp h1 with h2 | h2
        · exact absurd h2 (by decide)
        · rcases List.mem_cons.mp h2 with h3 | h3
          · exact absurd h3 (by decide)
          · rcases List.mem_cons.mp h3 with h4 | h4
            · exact absurd h4 (by decide)
            · rcases List.mem_append.mp h4 with h5 | h5
              · exact hh_q h5
              · exact hp_q h5
    have hqr : parseQuery (urlToStringList (GoURL.mk sch host path (some q) none)) =
        (sch ++ ':' :: ('/' :: '/' :: (host ++ path)), some q) := by
      rw [parseQuery, hpre, splitAtChar_append hnoq q]
    rw [parseURLList, if_neg hanysp]
    simp only [hfr, hqr, hsr]
    rw [hs_low, htw, hdw]

/-! ## Claims -/

/-- C1: For every ranked result list and configured maximum context length,
the total character length of the RAG-assembled context never exceeds the
(effective) configured maximum; a chunk that would overflow the budget is
truncated to the remaining budget (with an ellipsis marker appended) rather
than dropped outright, provided the remaining budget exceeds the minimum
useful size of 100 characters, and assembly stops after the truncated chunk
— the tail of the result list is never consulted. -/
theorem rag_context_length_and_truncation :
    (∀ (results : List searchResult) (maxLen : Int) (ctx : String),
      buildRAGContext results maxLen = some ctx →
      (goLen ctx : Int) ≤ effectiveMaxLength maxLen) ∧
    (∀ (maxLength : Int) (r : searchResult) (rest : List searchResult)
        (st : ragAsmState),
      chunkKey r ∉ st.seenKeys →
      getContentFromEmbedding r.Item ≠ "" →
      100 < maxLength - st.totalLength →
      maxLength - st.totalLength < (goLen (getContentFromEmbedding r.Item) : Int) →
      ragAsmLoop maxLength (r :: rest) st =
        { seenKeys := st.seenKeys ++ [chunkKey r],
          contextParts := st.contextParts ++
            [goTake (getContentFromEmbedding r.Item)
                (maxLength - st.totalLength).toNat ++ "..."],
          totalLength := st.totalLength +
            goLen (goTake (getContentFromEmbedding r.Item)
                (maxLength - st.totalLength).toNat ++ "..."),
          usedResults := st.usedResults ++ [r] }) := by
  constructor
  · intro results maxLen ctx h
    simp only [buildRAGContext] at h
    split at h
    · exact absurd h (by simp)
    · rename_i hparts
      have hpos : 0 < effectiveMaxLength maxLen := by
        refine ragAsmLoop_parts_changed_pos (effectiveMaxLength maxLen) results
          ⟨[], [], 0, []⟩ le_rfl ?_
        simpa using hparts
      rw [Option.some_inj] at h
      subst h
      split
      · rename_i hgt
        rw [show goLen (goTake (goJoin (ragAsmLoop (effectiveMaxLength maxLen) results
            ⟨[], [], 0, []⟩).contextParts "\n\n") (effectiveMaxLength maxLen).toNat) =
            min (effectiveMaxLength maxLen).toNat
              (goLen (goJoin (ragAsmLoop (effectiveMaxLength maxLen) results
                ⟨[], [], 0, []⟩).contextParts "\n\n")) from goLen_goTake _ _]
        have := Int.toNat_of_nonneg (le_of_lt hpos)
        omega
      · rename_i hle
        omega
  · intro maxLength r rest st hseen hcont h100 hover
    rw [ragAsmLoop, if_neg hseen]
    simp only [if_neg hcont]
    rw [if_neg (by omega : ¬ (maxLength - st.totalLength ≤ 0))]
    rw [if_pos (by omega : (goLen (getContentFromEmbedding r.Item) : Int) >
      maxLength - st.totalLength)]
    rw [if_pos (by omega : maxLength - st.totalLength > 100)]

/-- C1 witness: a 102-character chunk against a 101-character budget is
truncated, not dropped, and assembly stops; and a small concrete assembly
stays within the default maximum. -/
theorem rag_context_length_and_truncation_witness :
    ((goLen "hello" : Int) ≤ effectiveMaxLength 0) ∧
    ragAsmLoop 101
        [⟨⟨"id1", 0, ⟨List.replicate 102 'a'⟩, none, []⟩, 1⟩]
        ⟨[], [], 0, []⟩ =
      { seenKeys := [] ++ [chunkKey ⟨⟨"id1", 0, ⟨List.replicate 102 'a'⟩, none, []⟩, 1⟩],
        contextParts := [] ++
          [goTake (getContentFromEmbedding ⟨"id1", 0, ⟨List.replicate 102 'a'⟩, none, []⟩)
              ((101 : Int) - 0).toNat ++ "..."],
        totalLength := 0 +
          goLen (goTake (getContentFromEmbedding ⟨"id1", 0, ⟨List.replicate 102 'a'⟩, none, []⟩)
              ((101 : Int) - 0).toNat ++ "..."),
        usedResults := [] ++ [⟨⟨"id1", 0, ⟨List.replicate 102 'a'⟩, none, []⟩, 1⟩] } := by
  constructor
  · exact rag_context_length_and_truncation.1
      [⟨⟨"x", 0, "hello", none, []⟩, 1⟩] 0 "hello" (by decide)
  · exact rag_context_length_and_truncation.2 101
      ⟨⟨"id1", 0, ⟨List.replicate 102 'a'⟩, none, []⟩, 1⟩ []
      ⟨[], [], 0, []⟩ (by simp) (by decide) (by decide) (by decide)

/-- C2: For every chunk selected for embedding in the file flow of the embed
command (after deduplication by id), exactly one output record is appended:
on a successful inference call the record carries the embedding vector, and
on a failed call the record has the error message set and no vector while
retaining the chunk's content and metadata; a per-chunk failure does not
abort the batch or the run, and no chunk is silently dropped by any worker —
for any division of the selected chunks into worker batches, the records
produced across all batches are exactly one per selected chunk. -/
theorem embed_per_chunk_record_exactly_once :
    (∀ (embedCall : crawledChunk → Except String (List ℚ))
        (batch : List crawledChunk) (out : List outItem),
      processBatch embedCall batch out = out ++ batch.map (recordForChunk embedCall)) ∧
    (∀ (embedCall : crawledChunk → Except String (List ℚ)) (c : crawledChunk)
        (e : String), embedCall c = .error e →
      recordForChunk embedCall c =
        ⟨c.ID, c.ChunkIndex, c.Content, c.Metadata, none, some e⟩) ∧
    (∀ (embedCall : crawledChunk → Except String (List ℚ)) (c : crawledChunk)
        (v : List ℚ), embedCall c = .ok v →
      recordForChunk embedCall c =
        ⟨c.ID, c.ChunkIndex, c.Content, c.Metadata, some v, none⟩) ∧
    (∀ (embedCall : crawledChunk → Except String (List ℚ))
        (batches : List (List crawledChunk)) (toEmbed : List crawledChunk),
      batches.flatten.Perm toEmbed →
      ((batches.map (fun b => processBatch embedCall b [])).flatten).Perm
        (toEmbed.map (recordForChunk embedCall))) := by
  refine ⟨processBatch_eq_append, ?_, ?_, ?_⟩
  · intro embedCall c e h
    simp [recordForChunk, h]
  · intro embedCall c v h
    simp [recordForChunk, h]
  · intro embedCall batches toEmbed hperm
    have h1 : batches.map (fun b => processBatch embedCall b []) =
        batches.map (fun b => b.map (recordForChunk embedCall)) := by
      simp [processBatch_eq_append]
    rw [h1, ← List.map_flatten]
    exact hperm.map (recordForChunk embedCall)

/-- C2 witness: a two-chunk batch, one failing and one succeeding, yields
exactly its two records, and the two-batch split produces the same
multiset. -/
theorem embed_per_chunk_record_exactly_once_witness :
    (processBatch
        (fun c => if c.ID = "a" then .error "boom" else .ok [1])
        [⟨0, "ca", "a", none, 2⟩, ⟨1, "cb", "b", none, 2⟩] [] =
      [] ++ [⟨0, "ca", "a", none, 2⟩, ⟨1, "cb", "b", none, 2⟩].map
          (recordForChunk (fun c => if c.ID = "a" then .error "boom" else .ok [1]))) ∧
    (recordForChunk (fun c => if c.ID = "a" then .error "boom" else .ok [1])
        ⟨0, "ca", "a", none, 2⟩ = ⟨"a", 0, "ca", none, none, some "boom"⟩) ∧
    (recordForChunk (fun c => if c.ID = "a" then .error "boom" else .ok [1])
        ⟨1, "cb", "b", none, 2⟩ = ⟨"b", 1, "cb", none, some [1], none⟩) ∧
    (([[⟨0, "ca", "a", none, 2⟩], [⟨1, "cb", "b", none, 2⟩]].map
        (fun b => processBatch (fun c => if c.ID = "a" then .error "boom" else .ok [1]) b [])).flatten).Perm
      ([⟨0, "ca", "a", none, 2⟩, ⟨1, "cb", "b", none, 2⟩].map
        (recordForChunk (fun c => if c.ID = "a" then .error "boom" else .ok [1]))) :=
  ⟨embed_per_chunk_record_exactly_once.1 _ _ _,
   embed_per_chunk_record_exactly_once.2.1 _ _ _ (by rfl),
   embed_per_chunk_record_exactly_once.2.2.1 _ _ _ (by rfl),
   embed_per_chunk_record_exactly_once.2.2.2 _ _ _ (by decide)⟩

/-- C6: When progressive mode is enabled and the requested context size
exceeds 10, the initial retrieval requests one third (Go truncating
division) of the requested chunk count, floor-bounded at 5 chunks, and, when
the user gave no explicit similarity threshold (the 0.0 auto value), uses
the stricter 0.5 threshold; in particular context-size 60 yields 20 chunks
at threshold 0.5. -/
theorem progressive_initial_retrieval (n : Int) (thr : ℚ) (hn : n > 10) :
    (progressiveRetrievalParams n thr true).1 =
      (if Int.tdiv n 3 < 5 then 5 else Int.tdiv n 3) ∧
    (thr = 0 → (progressiveRetrievalParams n thr true).2 = 1/2) ∧
    progressiveRetrievalParams 60 0 true = (20, 1/2) := by
  refine ⟨?_, ?_, by norm_num [progressiveRetrievalParams, Int.tdiv]⟩
  · simp [progressiveRetrievalParams, hn]
  · intro h0
    subst h0
    simp [progressiveRetrievalParams, hn]

/-- C6 witness: the concrete scenario of the claim, context-size 60 with an
unset threshold. -/
theorem progressive_initial_retrieval_witness :
    ((progressiveRetrievalParams 60 0 true).1 =
        (if Int.tdiv 60 3 < 5 then 5 else Int.tdiv 60 3) ∧
      ((0 : ℚ) = 0 → (progressiveRetrievalParams 60 0 true).2 = 1/2) ∧
      progressiveRetrievalParams 60 0 true = (20, 1/2)) :=
  progressive_initial_retrieval 60 0 (by decide)

/-- C7: For every query whose similarity search returns zero qualifying
results, the RAG command reports the explicit "no relevant context" outcome
and returns without ever calling the text-generation boundary. -/
theorem rag_zero_results_no_generation (sim : List ℚ → List ℚ → ℚ)
    (query : List ℚ) (records : List embeddingItem) (topK : Nat)
    (threshold : ℚ) (maxLen : Int)
    (h : searchSimilar sim query records topK threshold = []) :
    runRAGPipeline (searchSimilar sim query records topK threshold) maxLen =
      .noRelevantContext ∧
    ragCallsGeneration
        (runRAGPipeline (searchSimilar sim query records topK threshold) maxLen) =
      false := by
  rw [h]
  exact ⟨by simp [runRAGPipeline], by simp [runRAGPipeline, ragCallsGeneration]⟩

/-- C7 witness: an empty store qualifies nothing, and the pipeline reports
the no-context outcome without generation. -/
theorem rag_zero_results_no_generation_witness :
    runRAGPipeline (searchSimilar (fun _ _ => 0) [] [] 3 (3/10)) 8000 =
      .noRelevantContext ∧
    ragCallsGeneration
        (runRAGPipeline (searchSimilar (fun _ _ => 0) [] [] 3 (3/10)) 8000) =
      false :=
  rag_zero_results_no_generation (fun _ _ => 0) [] [] 3 (3/10) 8000
    (by simp [searchSimilar, searchRanked, dedupRankedByKey])

/-- C10: When the embed command is invoked with `--file` but with neither
`--all` nor a non-negative `--chunk` index, only the first chunk in the file
is selected for embedding, so exactly one output record is produced. -/
theorem embed_default_selects_first_chunk
    (embedCall : crawledChunk → Except String (List ℚ)) (c : crawledChunk)
    (chunks : List crawledChunk) (k : Int) (hk : k < 0) :
    embedFileFlow embedCall (c :: chunks) false k =
      some [recordForChunk embedCall c] ∧
    (embedFileFlow embedCall (c :: chunks) false k).map List.length = some 1 := by
  have hsel : embedFileFlow embedCall (c :: chunks) false k =
      some [recordForChunk embedCall c] := by
    have hknn : ¬ (k ≥ 0) := by omega
    simp [embedFileFlow, selectChunksToEmbed, dedupChunksByID, hknn,
      processBatch_eq_append]
  exact ⟨hsel, by rw [hsel]; rfl⟩

/-- C10 witness: a two-chunk file with the default flags produces exactly the
first chunk's record. -/
theorem embed_default_selects_first_chunk_witness :
    (embedFileFlow (fun _ => .ok [2]) [⟨0, "ca", "a", none, 2⟩, ⟨1, "cb", "b", none, 2⟩]
        false (-1) =
      some [recordForChunk (fun _ => .ok [2]) ⟨0, "ca", "a", none, 2⟩]) ∧
    (embedFileFlow (fun _ => .ok [2]) [⟨0, "ca", "a", none, 2⟩, ⟨1, "cb", "b", none, 2⟩]
        false (-1)).map List.length = some 1 :=
  embed_default_selects_first_chunk (fun _ => .ok [2]) ⟨0, "ca", "a", none, 2⟩
    [⟨1, "cb", "b", none, 2⟩] (-1) (by decide)

/-- The ranking order is transitive. -/
theorem searchLE_trans (a b c : ℕ × searchResult) (hab : searchLE a b = true)
    (hbc : searchLE b c = true) : searchLE a c = true := by
  simp only [searchLE, decide_eq_true_eq] at hab hbc ⊢
  rcases hab with h1 | ⟨h1, h1i⟩ <;> rcases hbc with h2 | ⟨h2, h2i⟩
  · exact Or.inl (lt_trans h2 h1)
  · exact Or.inl (h2 ▸ h1)
  · exact Or.inl (h1 ▸ h2)
  · exact Or.inr ⟨h1.trans h2, h1i.trans h2i⟩

/-- The ranking order is total. -/
theorem searchLE_total (a b : ℕ × searchResult) :
    (searchLE a b || searchLE b a) = true := by
  simp only [searchLE, Bool.or_eq_true, decide_eq_true_eq]
  rcases lt_trichotomy a.2.Similarity b.2.Similarity with h | h | h
  · exact Or.inr (Or.inl h)
  · rcases Nat.le_total a.1 b.1 with hi | hi
    · exact Or.inl (Or.inr ⟨h, hi⟩)
    · exact Or.inr (Or.inr ⟨h.symm, hi⟩)
  · exact Or.inl (Or.inl h)

/-- Deduplication only removes elements. -/
theorem dedupRanked_sublist :
    ∀ (l : List (ℕ × searchResult)) (seen : List String),
      (dedupRankedByKey l seen).Sublist l := by
  intro l
  induction l with
  | nil => intro seen; simp [dedupRankedByKey]
  | cons p rest ih =>
    intro seen
    rw [dedupRankedByKey]
    split
    · exact (ih seen).cons p
    · exact (ih (resultKey p.2 :: seen)).cons₂ p

/-- Deduplication yields pairwise-distinct keys, none of them previously
seen. -/
theorem dedupRanked_keys_nodup :
    ∀ (l : List (ℕ × searchResult)) (seen : List String),
      (∀ p ∈ dedupRankedByKey l seen, resultKey p.2 ∉ seen) ∧
      ((dedupRankedByKey l seen).map (fun p => resultKey p.2)).Nodup := by
  intro l
  induction l with
  | nil => intro seen; simp [dedupRankedByKey]
  | cons p rest ih =>
    intro seen
    rw [dedupRankedByKey]
    split
    · exact ih seen
    · rename_i hnew
      obtain ⟨ihmem, ihnodup⟩ := ih (resultKey p.2 :: seen)
      constructor
      · intro q hq
        rcases List.mem_cons.mp hq with rfl | hq
        · exact hnew
        · exact fun hs => ihmem q hq (List.mem_cons_of_mem _ hs)
      · rw [List.map_cons, List.nodup_cons]
        refine ⟨?_, ihnodup⟩
        intro hmem
        rcases List.mem_map.mp hmem with ⟨q, hq, hkey⟩
        exact ihmem q hq (hkey ▸ List.mem_cons_self _ _)

/-- C3: For every query vector, record set, top-K and threshold, search
returns results sorted by similarity descending with a stable sort — the
ranked list is ordered by similarity descending with ties in original store
order — deduplicated by identifier (or content-derived fallback key) before
the top-K cut, so the result list has no duplicate keys and at most top-K
elements.  (spec-modelled: the search engine itself is absent from src/, so
`searchSimilar` is the §4.6 model with the scoring function abstracted.) -/
theorem search_sorted_dedup_topk (sim : List ℚ → List ℚ → ℚ) (query : List ℚ)
    (records : List embeddingItem) (topK : Nat) (threshold : ℚ) :
    (searchSimilar sim query records topK threshold).length ≤ topK ∧
    ((searchSimilar sim query records topK threshold).map resultKey).Nodup ∧
    List.Pairwise (fun a b => b.Similarity ≤ a.Similarity)
      (searchSimilar sim query records topK threshold) ∧
    List.Pairwise
      (fun a b => b.2.Similarity < a.2.Similarity ∨
        (a.2.Similarity = b.2.Similarity ∧ a.1 ≤ b.1))
      (searchRanked sim query records threshold) := by
  have hranked : List.Pairwise (fun a b => searchLE a b = true)
      (searchRanked sim query records threshold) := by
    unfold searchRanked
    exact List.sorted_mergeSort searchLE_trans searchLE_total _
  have hsub : ((dedupRankedByKey (searchRanked sim query records threshold) []).take
      topK).Sublist (searchRanked sim query records threshold) :=
    (List.take_sublist _ _).trans (dedupRanked_sublist _ [])
  refine ⟨?_, ?_, ?_, ?_⟩
  · simp only [searchSimilar, List.length_map]
    exact List.length_take_le _ _
  · have h1 : (searchSimilar sim query records topK threshold).map resultKey =
        ((dedupRankedByKey (searchRanked sim query records threshold) []).take
          topK).map (fun p => resultKey p.2) := by
      simp [searchSimilar, List.map_map]
      rfl
    rw [h1]
    exact List.Nodup.sublist
      ((List.take_sublist topK
          (dedupRankedByKey (searchRanked sim query records threshold) [])).map
        (fun p => resultKey p.2))
      (dedupRanked_keys_nodup (searchRanked sim query records threshold) []).2
  · have h2 : List.Pairwise (fun a b => searchLE a b = true)
        ((dedupRankedByKey (searchRanked sim query records threshold) []).take topK) :=
      hranked.sublist hsub
    rw [searchSimilar]
    refine List.pairwise_map.mpr (h2.imp ?_)
    intro a b hab
    simp only [searchLE, decide_eq_true_eq] at hab
    rcases hab with h | ⟨h, _⟩
    · exact le_of_lt h
    · exact le_of_eq h.symm
  · exact hranked.imp (by
      intro a b hab
      simpa [searchLE, decide_eq_true_eq] using hab)

/-- Words of an all-whitespace list: none. -/
theorem fieldsAux_all_space_nil {ws : List Char}
    (hws : ∀ c ∈ ws, isGoSpace c = true) : fieldsAux ws [] = [] := by
  induction ws with
  | nil => rfl
  | cons w ws ih =>
    rw [fieldsAux, if_pos (hws w (List.mem_cons_self _ _)), if_pos rfl]
    exact ih fun c hc => hws c (List.mem_cons_of_mem _ hc)

/-- Appending trailing whitespace does not change the fields. -/
theorem fieldsAux_append_space {ws : List Char}
    (hws : ∀ c ∈ ws, isGoSpace c = true) :
    ∀ (l acc : List Char), fieldsAux (l ++ ws) acc = fieldsAux l acc := by
  intro l
  induction l with
  | nil =>
    intro acc
    cases ws with
    | nil => rfl
    | cons w ws1 =>
      have hw : isGoSpace w = true := hws w (List.mem_cons_self _ _)
      have hrest : fieldsAux ws1 [] = [] :=
        fieldsAux_all_space_nil fun c hc => hws c (List.mem_cons_of_mem _ hc)
      by_cases hacc : acc = []
      · subst hacc
        simp only [List.nil_append, fieldsAux, hw, if_pos rfl, if_true, hrest]
      · simp only [List.nil_append, fieldsAux, hw, if_true, if_neg hacc, hrest]
  | cons c rest ih =>
    intro acc
    rw [List.cons_append, fieldsAux, fieldsAux]
    by_cases hc : isGoSpace c = true
    · rw [if_pos hc, if_pos hc]
      by_cases hacc : acc = []
      · rw [if_pos hacc, if_pos hacc, ih]
      · rw [if_neg hacc, if_neg hacc, ih]
    · rw [if_neg hc, if_neg hc, ih]

/-- Leading whitespace does not change the fields. -/
theorem fieldsList_trimLeft (l : List Char) :
    fieldsList (trimLeftList l) = fieldsList l := by
  induction l with
  | nil => rfl
  | cons c rest ih =>
    by_cases hc : isGoSpace c = true
    · rw [trimLeftList, List.dropWhile_cons_of_pos hc]
      rw [show fieldsList (c :: rest) = fieldsAux rest [] by
        rw [fieldsList, fieldsAux, if_pos hc, if_pos rfl]]
      exact ih
    · rw [trimLeftList, List.dropWhile_cons_of_neg (by simpa using hc)]

/-- Trailing whitespace does not change the fields. -/
theorem fieldsList_trimRight (l : List Char) :
    fieldsList (trimRightList l) = fieldsList l := by
  have hsplit : l = trimRightList l ++ (l.reverse.takeWhile isGoSpace).reverse := by
    conv_lhs => rw [← List.reverse_reverse l,
      ← List.takeWhile_append_dropWhile (p := isGoSpace) (l := l.reverse)]
    rw [List.reverse_append]
    rfl
  conv_rhs => rw [hsplit]
  rw [fieldsList, fieldsList,
    fieldsAux_append_space (fun c hc => List.mem_takeWhile_imp
      (List.mem_reverse.mp hc))]

/-- `strings.Fields` is invariant under `strings.TrimSpace`. -/
theorem fieldsList_trimSpace (l : List Char) :
    fieldsList (trimSpaceList l) = fieldsList l := by
  rw [trimSpaceList, fieldsList_trimLeft, fieldsList_trimRight]

/-- The token estimate is invariant under trimming. -/
theorem estTokens_trimSpace (s : String) :
    estTokens (trimSpace s) = estTokens s := by
  simp only [estTokens, trimSpace]
  rw [fieldsList_trimSpace]

/-- A `dropWhile` fixpoint has a head that fails the predicate. -/
theorem dropWhile_cons_self {p : Char → Bool} {c : Char} {t : List Char}
    (h : List.dropWhile p (c :: t) = c :: t) : p c = false := by
  by_cases hc : p c = true
  · rw [List.dropWhile_cons_of_pos hc] at h
    have := congrArg List.length h
    have hle := (List.dropWhile_sublist p (l := t)).length_le
    simp at this
    omega
  · simpa using hc

/-- A `dropWhile` fixpoint restricts to its prefixes. -/
theorem dropWhile_fix_of_append {p : Char → Bool} {x y : List Char}
    (h : List.dropWhile p (x ++ y) = x ++ y) : List.dropWhile p x = x := by
  cases x with
  | nil => rfl
  | cons a x1 =>
    rw [List.cons_append] at h
    have ha := dropWhile_cons_self h
    rw [List.dropWhile_cons_of_neg (by simp [ha])]

/-- `trimRightList` is idempotent. -/
theorem trimRightList_idem (l : List Char) :
    trimRightList (trimRightList l) = trimRightList l := by
  rw [trimRightList, trimRightList, List.reverse_reverse,
    List.dropWhile_idempotent]

/-- `trimSpaceList` has no leading whitespace left to trim. -/
theorem trimLeft_trimSpace (l : List Char) :
    trimLeftList (trimSpaceList l) = trimSpaceList l := by
  rw [trimSpaceList, trimLeftList, trimLeftList, List.dropWhile_idempotent]

/-- `trimSpaceList` has no trailing whitespace left to trim. -/
theorem trimRight_trimSpace (l : List Char) :
    trimRightList (trimSpaceList l) = trimSpaceList l := by
  have hA : List.dropWhile isGoSpace (trimRightList l).reverse =
      (trimRightList l).reverse := by
    rw [trimRightList, List.reverse_reverse, List.dropWhile_idempotent]
  have hsplit : (trimRightList l).reverse =
      (List.dropWhile isGoSpace (trimRightList l)).reverse ++
        (List.takeWhile isGoSpace (trimRightList l)).reverse := by
    rw [← List.reverse_append, List.takeWhile_append_dropWhile]
  have hfix : List.dropWhile isGoSpace
      (List.dropWhile isGoSpace (trimRightList l)).reverse =
      (List.dropWhile isGoSpace (trimRightList l)).reverse := by
    refine dropWhile_fix_of_append
      (y := (List.takeWhile isGoSpace (trimRightList l)).reverse) ?_
    rw [← hsplit]
    exact hA
  show trimRightList (trimLeftList (trimRightList l)) = trimLeftList (trimRightList l)
  rw [trimLeftList, trimRightList, hfix, List.reverse_reverse]

/-- `trimSpaceList` is idempotent. -/
theorem trimSpaceList_idem (l : List Char) :
    trimSpaceList (trimSpaceList l) = trimSpaceList l := by
  conv_lhs => rw [trimSpaceList, trimRight_trimSpace, trimLeft_trimSpace]

/-- `strings.TrimSpace` is idempotent. -/
theorem trimSpace_idem (s : String) : trimSpace (trimSpace s) = trimSpace s := by
  simp only [trimSpace]
  rw [trimSpaceList_idem]

/-- Invariant of the chunk-accumulation loop: every emitted chunk either
meets the token bound or is the trimmed form of a single sentence of the
split (the accumulator is extended only under the bound check, but a single
sentence is adopted unconditionally). -/
theorem chunkLoop_member (maxT : Nat) (S : List String) :
    ∀ (sents : List String) (current : String) (chunks : List String),
      (∀ s ∈ sents, s ∈ S) →
      (current = "" ∨ estTokens current ≤ maxT ∨ ∃ s ∈ S, current = trimSpace s) →
      (∀ c ∈ chunks, estTokens c ≤ maxT ∨ ∃ s ∈ S, c = trimSpace s) →
      ∀ c ∈ chunkLoop maxT sents current chunks,
        estTokens c ≤ maxT ∨ ∃ s ∈ S, c = trimSpace s := by
  intro sents
  induction sents with
  | nil =>
    intro current chunks _ hcur hchunks c hc
    rw [chunkLoop] at hc
    split at hc
    · rename_i hne
      split at hc
      · rcases List.mem_append.mp hc with h | h
        · exact hchunks c h
        · have hc2 : c = trimSpace current := by simpa using h
          subst hc2
          rcases hcur with rfl | hest | ⟨s, hs, rfl⟩
          · exact absurd rfl hne
          · exact Or.inl (by rw [estTokens_trimSpace]; exact hest)
          · exact Or.inr ⟨s, hs, trimSpace_idem s⟩
      · exact hchunks c hc
    · exact hchunks c hc
  | cons s rest ih =>
    intro current chunks hsub hcur hchunks c hc
    have hsS : s ∈ S := hsub s (List.mem_cons_self _ _)
    have hsub1 : ∀ t ∈ rest, t ∈ S := fun t ht => hsub t (List.mem_cons_of_mem _ ht)
    simp only [chunkLoop] at hc
    split at hc
    · exact ih current chunks hsub1 hcur hchunks c hc
    · rename_i hs1
      by_cases hflush : estTokens (current ++ " " ++ trimSpace s) > maxT ∧ ¬ current = ""
      · rw [if_pos hflush] at hc
        refine ih (trimSpace s) _ hsub1 (Or.inr (Or.inr ⟨s, hsS, rfl⟩)) ?_ c hc
        intro c1 hc1
        split at hc1
        · rcases List.mem_append.mp hc1 with h | h
          · exact hchunks c1 h
          · have hc2 : c1 = trimSpace current := by simpa using h
            subst hc2
            rcases hcur with rfl | hest | ⟨t, ht, rfl⟩
            · exact absurd rfl hflush.2
            · exact Or.inl (by rw [estTokens_trimSpace]; exact hest)
            · exact Or.inr ⟨t, ht, trimSpace_idem t⟩
        · exact hchunks c1 hc1
      · rw [if_neg hflush] at hc
        by_cases hemp : current = ""
        · rw [if_pos hemp] at hc
          exact ih (trimSpace s) chunks hsub1 (Or.inr (Or.inr ⟨s, hsS, rfl⟩))
            hchunks c hc
        · rw [if_neg hemp] at hc
          have hest : estTokens (current ++ " " ++ trimSpace s) ≤ maxT := by
            rcases not_and_or.mp hflush with h | h
            · omega
            · exact absurd hemp h
          exact ih (current ++ " " ++ trimSpace s) chunks hsub1
            (Or.inr (Or.inl hest)) hchunks c hc

/-- C9: URL normalization is idempotent — for every URL string `u`,
`normalizeURL (normalizeURL u) = normalizeURL u`: the first pass produces
either the empty error result or a serialised absolute URL whose fragment is
gone and whose path carries no trailing slash (or is exactly `/`), and a
second pass reparses that serialisation exactly and changes nothing. -/
theorem normalizeURL_idem (s : String) :
    normalizeURL (normalizeURL s) = normalizeURL s := by
  suffices h : ∀ l : List Char,
      normalizeURLList (normalizeURLList l) = normalizeURLList l by
    exact congrArg String.mk (h s.data)
  intro l
  by_cases h0 : trimSpaceList l = []
  · have h1 : normalizeURLList l = [] := by rw [normalizeURLList, if_pos h0]
    rw [h1]
    rfl
  · cases hp : parseURLList (trimSpaceList l) with
    | none =>
      have h1 : normalizeURLList l = [] := by
        rw [normalizeURLList, if_neg h0]
        simp only [hp]
      rw [h1]
      rfl
    | some u =>
      obtain ⟨hs_ne, hs_all, hs_head, hs_low, hh_slash, hh_hash, hh_q, hh_sp,
        hpa_hash, hpa_q, hpa_sp, hpa_head, hqinv⟩ := parseURLList_inv hp
      have h1 : normalizeURLList l = urlToStringList
          (GoURL.mk u.scheme u.host
            (if trimRightSlash u.path = [] then ['/'] else trimRightSlash u.path)
            u.query none) := by
        rw [normalizeURLList, if_neg h0]
        simp only [hp]
      rw [h1]
      set P : List Char :=
        if trimRightSlash u.path = [] then ['/'] else trimRightSlash u.path with hPdef
      have hP_hash : '#' ∉ P := by
        rw [hPdef]
        split
        · decide
        · exact fun hm => hpa_hash (mem_trimRightSlash hm)
      have hP_q : '?' ∉ P := by
        rw [hPdef]
        split
        · decide
        · exact fun hm => hpa_q (mem_trimRightSlash hm)
      have hP_sp : ∀ c ∈ P, isGoSpace c = false := by
        rw [hPdef]
        split
        · intro c hc
          rcases List.mem_singleton.mp hc with rfl
          decide
        · exact fun c hc => hpa_sp c (mem_trimRightSlash hc)
      have hP_head : P = [] ∨ P.head? = some '/' := by
        rw [hPdef]
        split
        · exact Or.inr rfl
        · rename_i hT
          refine Or.inr ?_
          rw [head_trimRightSlash hT]
          rcases hpa_head with hnil | hhead
          · rw [hnil] at hT
            exact absurd rfl hT
          · exact hhead
      have hround : parseURLList
          (urlToStringList (GoURL.mk u.scheme u.host P u.query none)) =
          some (GoURL.mk u.scheme u.host P u.query none) :=
        parse_urlToString (u := GoURL.mk u.scheme u.host P u.query none)
          hs_all hs_head hs_low hh_slash hh_hash hh_q hh_sp
          hP_hash hP_q hP_sp hP_head hqinv rfl
      have hnosp_out : ∀ c ∈ urlToStringList (GoURL.mk u.scheme u.host P u.query none),
          isGoSpace c = false := by
        refine urlToString_all
          (fun c hc => (isSchemeChar_props (hs_all c hc)).2.2.2.2)
          (by decide) (by decide) hh_sp hP_sp ?_ ?_
        · intro q hq2
          rcases hqinv with hn | ⟨q1, hq1, _, hsp1⟩
          · rw [hn] at hq2; exact Option.noConfusion hq2
          · rw [hq1] at hq2
            injection hq2 with he
            subst he
            exact ⟨by decide, hsp1⟩
        · intro f hf2
          exact Option.noConfusion hf2
      have hne_out : urlToStringList (GoURL.mk u.scheme u.host P u.query none) ≠ [] := by
        intro heq
        have hmem : (':' : Char) ∈
            urlToStringList (GoURL.mk u.scheme u.host P u.query none) := by
          rw [urlToStringList]
          simp
        rw [heq] at hmem
        exact List.not_mem_nil _ hmem
      have hP2 : (if trimRightSlash P = [] then ['/'] else trimRightSlash P) = P := by
        rw [hPdef]
        by_cases hT : trimRightSlash u.path = []
        · rw [if_pos hT]
          decide
        · rw [if_neg hT, trimRightSlash_idem, if_neg hT]
      rw [normalizeURLList, trimSpaceList_eq_self hnosp_out, if_neg hne_out]
      simp only [hround]
      rw [hP2]

/-- C4: If a host's robots fetch fails, the compliance check fails open —
the call returns allowed, a negative entry is cached with the shorter
negative TTL, and every subsequent call for that host within the
negative-cache TTL window returns allowed without attempting another fetch
and without changing the cache. -/
theorem robots_failed_fetch_fail_open {R : Type} (testGroup : R → String → Bool)
    (now : Int) (cache : List (String × robotsCacheEntry R)) (host path : String)
    (hmiss : lookupHost cache host = none) :
    (isAllowedByRobots testGroup now none cache host path).allowed = true ∧
    (isAllowedByRobots testGroup now none cache host path).fetched = true ∧
    lookupHost (isAllowedByRobots testGroup now none cache host path).cache host =
      some ⟨none, now, true⟩ ∧
    robotsNegativeCacheTTL < robotsCacheTTL ∧
    (∀ (now2 : Int) (fetch2 : Option R) (path2 : String),
      now2 - now < robotsNegativeCacheTTL →
      isAllowedByRobots testGroup now2 fetch2
          (isAllowedByRobots testGroup now none cache host path).cache host path2 =
        ⟨true, (isAllowedByRobots testGroup now none cache host path).cache, false⟩) := by
  have h1 : isAllowedByRobots testGroup now none cache host path =
      ⟨true, insertHost cache host ⟨none, now, true⟩, true⟩ := by
    simp [isAllowedByRobots, hmiss]
  have h2 : lookupHost (insertHost cache host (⟨none, now, true⟩ : robotsCacheEntry R))
      host = some ⟨none, now, true⟩ := by
    simp [lookupHost, insertHost]
  refine ⟨by rw [h1], by rw [h1], by rw [h1]; exact h2, by decide, ?_⟩
  intro now2 fetch2 path2 hwin
  rw [h1]
  simp only [isAllowedByRobots, h2]
  simp [hwin]

/-- C4 witness: an empty cache, a failed fetch at time 0, a re-check at time
1 nanosecond. -/
theorem robots_failed_fetch_fail_open_witness :
    (isAllowedByRobots (R := Unit) (fun _ _ => false) 0 none [] "h" "/").allowed = true ∧
    (isAllowedByRobots (R := Unit) (fun _ _ => false) 0 none [] "h" "/").fetched = true ∧
    lookupHost (isAllowedByRobots (R := Unit) (fun _ _ => false) 0 none [] "h" "/").cache
        "h" = some ⟨none, 0, true⟩ ∧
    isAllowedByRobots (R := Unit) (fun _ _ => false) 1 none
        (isAllowedByRobots (R := Unit) (fun _ _ => false) 0 none [] "h" "/").cache
        "h" "/x" =
      ⟨true, (isAllowedByRobots (R := Unit) (fun _ _ => false) 0 none [] "h" "/").cache,
        false⟩ := by
  have h := robots_failed_fetch_fail_open (R := Unit) (fun _ _ => false) 0 [] "h" "/"
    (by rfl)
  exact ⟨h.1, h.2.1, h.2.2.1, h.2.2.2.2 1 none "/x" (by decide)⟩

set_option maxRecDepth 10000 in
unseal splitSentencesAux countSubAux replaceAllAux in
/-- C8 counterexample: a single sentence of 20 words (estimate 26) against a
maximum of 10 tokens is emitted as one chunk whose estimate exceeds the
maximum — the accumulation loop only checks the bound when extending a
nonempty chunk, so a lone oversized sentence is adopted and flushed
unchecked. -/
theorem chunkContent_oversized_counterexample :
    chunkContent
        "red blue gold pink teal gray lime navy aqua ruby sage plum rust jade opal iris fern rose dusk moss."
        10 =
      ["red blue gold pink teal gray lime navy aqua ruby sage plum rust jade opal iris fern rose dusk moss"] ∧
    10 <
      estTokens
        "red blue gold pink teal gray lime navy aqua ruby sage plum rust jade opal iris fern rose dusk moss" := by
  constructor
  · decide
  · decide

/-- C8 (amended): chunkContent splits the text on sentence boundaries and
accumulates sentences into the current chunk while the estimated token count
(the fixed 1.3 multiplier over the word count) stays within the maximum;
consequently every returned chunk either has an estimated token count of at
most the configured maximum or consists of a single sentence of the split
(trimmed), whose own estimate may exceed the maximum — an oversized sentence
is emitted whole rather than split further. -/
theorem chunkContent_chunk_bound (text : String) (maxT : Nat) :
    ∀ c ∈ chunkContent text maxT,
      estTokens c ≤ maxT ∨
        ∃ s ∈ splitSentences (cleanContent text), c = trimSpace s := by
  intro c hc
  rw [chunkContent] at hc
  split at hc
  · simp at hc
  · exact chunkLoop_member maxT (splitSentences (cleanContent text))
      (splitSentences (cleanContent text)) "" [] (fun s hs => hs) (Or.inl rfl)
      (by simp) c hc

set_option maxRecDepth 10000 in
unseal splitSentencesAux countSubAux replaceAllAux in
/-- C8 (amended) witness: an 11-word sentence under a 100-token maximum is
returned as a chunk satisfying the bound. -/
theorem chunkContent_chunk_bound_witness :
    estTokens "ant bee cat dog elk fox gnu hen ibis jay koi" ≤ 100 ∨
      ∃ s ∈ splitSentences (cleanContent "ant bee cat dog elk fox gnu hen ibis jay koi."),
        "ant bee cat dog elk fox gnu hen ibis jay koi" = trimSpace s :=
  chunkContent_chunk_bound "ant bee cat dog elk fox gnu hen ibis jay koi." 100
    "ant bee cat dog elk fox gnu hen ibis jay koi" (by decide)

/-- C5: With the embedding rate limit a positive `rps` requests per second,
the single shared ticker channel gates every embedding call regardless of
worker, so `M` gated calls span a wall-clock duration of at least
`(M-1)/rps` seconds; a rate of zero disables limiting entirely. -/
theorem rate_limit_duration_bound :
    (∀ (rps : ℚ) (ts : List ℚ) (d : ℚ), 0 < rps →
      tickerGated (rateInterval rps) ts → ts ≠ [] →
      (∀ t ∈ ts, t ≤ d) → ((ts.length : ℚ) - 1) / rps ≤ d) ∧
    rateEnabled 0 = false := by
  constructor
  · rintro rps ts d hrps ⟨ks, hmono, hge⟩ hne hle
    have hM : 0 < ts.length := List.length_pos.mpr hne
    have hlt : ts.length - 1 < ts.length := by omega
    have h1 : ((ks (ts.length - 1) : ℚ) + 1) * rateInterval rps ≤
        ts.get ⟨ts.length - 1, hlt⟩ := hge (ts.length - 1) hlt
    have h2 : ts.length - 1 ≤ ks (ts.length - 1) := hmono.le_apply
    have h3 : ((ts.length : ℚ)) ≤ (ks (ts.length - 1) : ℚ) + 1 := by
      have : ts.length ≤ ks (ts.length - 1) + 1 := by omega
      exact_mod_cast this
    have hint : 0 ≤ rateInterval rps := by
      unfold rateInterval
      positivity
    have h4 : (ts.length : ℚ) * rateInterval rps ≤ ts.get ⟨ts.length - 1, hlt⟩ :=
      le_trans (mul_le_mul_of_nonneg_right h3 hint) h1
    have h5 : ts.get ⟨ts.length - 1, hlt⟩ ≤ d := hle _ (ts.get_mem _ _)
    have h6 : ((ts.length : ℚ) - 1) / rps ≤ (ts.length : ℚ) * rateInterval rps := by
      unfold rateInterval
      rw [mul_one_div]
      apply (div_le_div_iff_of_pos_right hrps).mpr
      linarith
    linarith
  · decide

/-- C5 witness: one call gated at time 1 second under a 1 req/s limit within
a duration of 1 second satisfies the bound `(1-1)/1 ≤ 1`. -/
theorem rate_limit_duration_bound_witness :
    (((([(1 : ℚ)].length : ℚ) - 1) / 1 ≤ (1 : ℚ)) ∧ rateEnabled 0 = false) :=
  ⟨rate_limit_duration_bound.1 1 [1] 1 (by norm_num)
      ⟨id, strictMono_id, by
        intro i h
        simp only [List.length_singleton] at h
        interval_cases i
        simp [rateInterval]⟩
      (by simp) (by simp),
   rate_limit_duration_bound.2⟩

end KirkAI
